import Mathlib

/-!
Verification development for the aspmc core: the extended weighted CNF data
model with its text format (aspmc/compile/cnf.py), the trivial-case
evaluation and dispatcher, the MaxSAT weight quantization, the tempfile
registry (aspmc/signal_handling.py), and the tree-decomposition structure
(aspmc/graph/treedecomposition.py).  Python code is shallowly embedded:
line-based text is modelled at whitespace-token granularity, Python ints as
Int, floats as exact rationals, external calls (SAT oracle, backends) as
parameters, and aborting error paths as Except values.
-/

namespace Aspmc

/-- Ways in which the Python code can abort instead of returning a value:
the three fatal format checks of CNF.__init__ (which call exit(-1)), plus
uncaught Python exceptions (IndexError, ValueError, KeyError), the MaxSAT
top-weight overflow exit, and the unknown-strategy exit. -/
inductive PyErr where
  | formatMismatch
  | formatTooManySemirings
  | formatMissingTransform
  | indexError
  | valueError
  | keyError
  | overflow
  | unknownStrategy
  deriving DecidableEq, Repr

/-- A whitespace-delimited token of the extended CNF text format.
num i models the decimal rendering of the integer i (accepted by Python
int()); word s models a non-numeric token such as a keyword or module name;
vals parts models a single whitespace-free token that is the
semicolon-joined list of per-query weight strings, as produced by
the weight serializer and consumed by split on the semicolon. -/
inductive Token where
  | num (i : Int)
  | word (s : String)
  | vals (parts : List String)
  deriving DecidableEq, Repr

/-- The interface of a semiring module (see aspmc/semirings/): parse and
to_string convert between weight strings and values, together with the
algebraic operations and the idempotence test.  Values of all semirings
live in one universal type V, mirroring Python dynamic typing. -/
structure SR (V : Type) where
  parse : String → V
  to_string : V → String
  add : V → V → V
  mul : V → V → V
  zero : V
  one : V
  from_value : V → V
  is_idempotent : Bool

/-- The registry resolving a semiring module name (importlib.import_module
in the source) to its implementation. -/
abbrev SRReg (V : Type) := String → SR V

/-- The CNF data model of aspmc/compile/cnf.py: clauses in minisat literal
format, the variable count, the literal-to-weight-vector map (an
insertion-ordered dictionary, modelled as an association list), the list of
semiring module names, the quantification levels and the optional
cross-semiring transform (kept as its token list). -/
structure CNFData (V : Type) where
  clauses : List (List Int)
  nr_vars : Int
  weights : List (Int × List V)
  semirings : List String
  quantified : List (List Int)
  transform : Option (List Token)

/-- List indexing as in Python, where an out-of-range index raises
IndexError. -/
def getE {α : Type} (l : List α) (i : Nat) : Except PyErr α :=
  match l.get? i with
  | some x => .ok x
  | none => .error .indexError

/-- The semiring chosen for the weight of literal idx, as computed
identically in CNF.__init__ and CNF.__str__: semirings at index 0 when
abs(idx) is in quantified at index 0, else semirings at index 1. -/
def srNameFor (quantified : List (List Int)) (semirings : List String) (idx : Int) :
    Except PyErr String :=
  match quantified.get? 0 with
  | none => .error .indexError
  | some q0 =>
      if ((idx.natAbs : Int) ∈ q0) then getE semirings 0 else getE semirings 1

/-- One weight line of CNF.__str__. -/
def weightLine {V : Type} (reg : SRReg V) (c : CNFData V) (idx : Int) (ws : List V) :
    Except PyErr (List Token) := do
  let name ← srNameFor c.quantified c.semirings idx
  .ok ([.word "c", .word "p", .word "weight", .num idx,
        .vals (ws.map (reg name).to_string), .num 0])

/-- CNF.__str__ (equivalently to_file and to_stream with extras enabled),
producing the token lines of the extended CNF text: the p-cnf line, one
line per clause, one line per weight, the semirings line when semirings
are declared, the transform line when present, and one quantify line per
level. -/
def serializeCNF {V : Type} (reg : SRReg V) (c : CNFData V) :
    Except PyErr (List (List Token)) := do
  let wlines ← c.weights.mapM (fun p => weightLine reg c p.1 p.2)
  .ok ([[Token.word "p", Token.word "cnf", Token.num c.nr_vars, Token.num c.clauses.length]]
    ++ c.clauses.map (fun cl => cl.map Token.num ++ [Token.num 0])
    ++ wlines
    ++ (if c.semirings.length > 0 then
          [[Token.word "c", Token.word "p", Token.word "semirings"]
            ++ c.semirings.map Token.word ++ [Token.num 0]]
        else [])
    ++ (match c.transform with
        | some ts => [[Token.word "c", Token.word "p", Token.word "transform"] ++ ts ++ [Token.num 0]]
        | none => [])
    ++ c.quantified.map (fun l =>
          [Token.word "c", Token.word "p", Token.word "quantify"] ++ l.map Token.num ++ [Token.num 0]))

/-- The parser state before weight conversion: weights still hold their raw
payload tokens, exactly as CNF.__init__ keeps the joined weight string
until the final conversion loop. -/
structure RawCNF where
  clauses : List (List Int)
  nr_vars : Int
  weights : List (Int × List Token)
  semirings : List String
  quantified : List (List Int)
  transform : Option (List Token)
  deriving DecidableEq, Repr

def RawCNF.init : RawCNF := ⟨[], 0, [], [], [], none⟩

/-- Python int() applied to a token: succeeds on a numeric token and raises
ValueError otherwise. -/
def asInt : Token → Except PyErr Int
  | .num i => .ok i
  | _ => .error .valueError

/-- Python importlib.import_module applied to a token: a module name is a
plain word; a numeric or joined-values token is not an importable name. -/
def asName : Token → Except PyErr String
  | .word s => .ok s
  | _ => .error .valueError

/-- Assignment into a Python dict: an existing key keeps its position and
gets the new value, a new key is appended. -/
def dictInsert {β : Type} (l : List (Int × β)) (k : Int) (v : β) : List (Int × β) :=
  if l.any (fun p => p.1 = k) then
    l.map (fun p => if p.1 = k then (k, v) else p)
  else l ++ [(k, v)]

/-- Lookup in a Python dict. -/
def lookupW {β : Type} (l : List (Int × β)) (k : Int) : Option β :=
  (l.find? (fun p => p.1 = k)).map Prod.snd

/-- The per-query weight strings recovered from a stored weight payload:
the stored string is split on semicolons.  A payload produced by the
serializer is a single vals token and splits back into its parts. -/
def payloadParts : List Token → List String
  | [Token.vals ps] => ps
  | [Token.num i] => [toString i]
  | [Token.word s] => s.splitOn ";"
  | _ => []

/-- One line of CNF.__init__: comment lines starting with the word c carry
properties when their second word is p (weight, semirings, transform,
quantify; unknown properties and a missing 0 sentinel are only logged);
a line starting with p sets nr_vars from its third token; any other line is
read as a clause whose final token is dropped. -/
def parseLine (st : RawCNF) (line : List Token) : Except PyErr RawCNF :=
  match line.head? with
  | none => .ok st
  | some t0 =>
    if t0 = .word "c" then
      if line.length > 2 ∧ line.get? 1 = some (.word "p") then
        match line.get? 2 with
        | some (.word "weight") => do
            let t3 ← (match line.get? 3 with
              | some t => Except.ok t
              | none => Except.error PyErr.indexError)
            let idx ← asInt t3
            .ok { st with weights := dictInsert st.weights idx ((line.drop 4).dropLast) }
        | some (.word "semirings") => do
            let names ← ((line.drop 3).dropLast).mapM asName
            .ok { st with semirings := names }
        | some (.word "transform") =>
            .ok { st with transform := some ((line.drop 3).dropLast) }
        | some (.word "quantify") => do
            let vs ← ((line.drop 3).dropLast).mapM asInt
            .ok { st with quantified := st.quantified ++ [vs] }
        | _ => .ok st
      else .ok st
    else if t0 = .word "p" then do
      let t2 ← (match line.get? 2 with
        | some t => Except.ok t
        | none => Except.error PyErr.indexError)
      let n ← asInt t2
      .ok { st with nr_vars := n }
    else do
      let lits ← line.mapM asInt
      .ok { st with clauses := st.clauses ++ [lits.dropLast] }

/-- The validation and weight-conversion tail of CNF.__init__: the three
fatal format checks (count mismatch, more than two semirings, two semirings
without a transform) followed by the conversion of every stored weight
string through the parse function of its semiring. -/
def finishParse {V : Type} (reg : SRReg V) (st : RawCNF) : Except PyErr (CNFData V) :=
  if st.quantified.length ≠ st.semirings.length then .error .formatMismatch
  else if st.semirings.length > 2 then .error .formatTooManySemirings
  else if st.semirings.length = 2 ∧ st.transform = none then .error .formatMissingTransform
  else do
    let ws ← st.weights.mapM (fun p => do
      let name ← srNameFor st.quantified st.semirings p.1
      Except.ok (p.1, (payloadParts p.2).map (reg name).parse))
    .ok ⟨st.clauses, st.nr_vars, ws, st.semirings, st.quantified, st.transform⟩

/-- CNF.__init__ on a string input: fold the line reader over the token
lines, then validate and convert. -/
def parseCNF {V : Type} (reg : SRReg V) (lines : List (List Token)) :
    Except PyErr (CNFData V) := do
  let raw ← lines.foldlM parseLine RawCNF.init
  finishParse reg raw

/-! Trivial-case evaluation (CNF.evaluate_trivial, CNF.get_weights,
CNF.remove_trivial_clauses). -/

/-- Modelled from the spec: the index helper to_dimacs lives in
aspmc/util.py, which is not among the sources; section 4.2 of the spec fixes
the flat weight layout, index 2(v-1) holds weight(v) and 2(v-1)+1 holds
weight(-v), so the index-to-literal map sends an even index i to i/2+1 and
an odd one to -(i/2+1). -/
def to_dimacs (i : Nat) : Int :=
  if i % 2 = 0 then ((i / 2 : Nat) : Int) + 1 else -(((i / 2 : Nat) : Int) + 1)

/-- CNF.get_weights for one or two declared semirings: the flat list whose
entry i is the weight vector of the literal to_dimacs i; a missing
dictionary key raises KeyError. -/
def getWeightsList {V : Type} (c : CNFData V) : Except PyErr (List (List V)) :=
  (List.range c.weights.length).mapM (fun i =>
    match lookupW c.weights (to_dimacs i) with
    | some ws => .ok ws
    | none => .error .keyError)

/-- Test of CNF.remove_trivial_clauses on one clause: the clause contains
some literal together with its negation. -/
def hasComplPair : List Int → Bool
  | [] => false
  | x :: xs => xs.contains (-x) || hasComplPair xs

/-- CNF.remove_trivial_clauses: drop every clause containing a literal and
its negation. -/
def removeTrivial (cls : List (List Int)) : List (List Int) :=
  cls.filter (fun c => !hasComplPair c)

/-- Python range(1, n+1) over the variables. -/
def range1 (n : Int) : List Int :=
  (List.range n.toNat).map (fun (i : Nat) => (i : Int) + 1)

/-- Result of the trivial-case shortcut: with no semirings the values are
plain integers (model counts), otherwise they are semiring values. -/
inductive TrivRes (V : Type) where
  | counts (l : List Int)
  | vals (l : List V)

/-- First element of a list under Python indexing. -/
def headE {α : Type} (l : List α) : Except PyErr α :=
  match l.head? with
  | some x => .ok x
  | none => .error .indexError

/-- CNF.evaluate_trivial.  After trivial-clause removal: with an empty
clause set it returns the per-query product of weight(v) + weight(-v) over
all variables (the count 2 to the nr_vars with no semirings, and with two
semirings folding inner values through the transform); with a non-empty
clause set it queries the SAT oracle (the external minisat call, passed
here as the parameter sat) and on unsatisfiability returns a vector of
zeros of the outer semiring; otherwise it returns none.  The two-semiring
unsatisfiable branch evaluates np.shape applied to self.weights at key 0, a
dictionary lookup of the never-present literal 0, which raises KeyError.
The elementwise numpy products over the query vector are modelled with
zipWith; the loop order over flat indices pairs each variable exactly once.
The transform string evaluation (Python eval) is the parameter tf. -/
def evaluateTrivial {V : Type} (reg : SRReg V) (tf : V → V) (sat : Bool) (c : CNFData V) :
    Except PyErr (Option (TrivRes V)) :=
  let cls := removeTrivial c.clauses
  match c.semirings with
  | [] =>
      if cls.isEmpty then
        if c.nr_vars = 0 then .ok (some (.counts [1]))
        else
          .ok (some (.counts ((List.range c.nr_vars.toNat).foldl
            (fun res _ => res.zipWith (· * ·) ([(1 : Int)].zipWith (· + ·) [1])) [1])))
      else if !sat then .ok (some (.counts [0]))
      else .ok none
  | [s0] =>
      let sr := reg s0
      if cls.isEmpty then
        if c.nr_vars = 0 then .ok (some (.vals [sr.one]))
        else do
          let flat ← getWeightsList c
          let w0 ← headE flat
          let res := (List.range c.nr_vars.toNat).foldl
            (fun res i =>
              res.zipWith sr.mul ((flat.getD (2 * i) []).zipWith sr.add (flat.getD (2 * i + 1) [])))
            (List.replicate w0.length sr.one)
          .ok (some (.vals res))
      else if !sat then do
          let flat ← getWeightsList c
          let w0 ← headE flat
          .ok (some (.vals (List.replicate w0.length sr.zero)))
      else .ok none
  | [s0, s1] =>
      if cls.isEmpty then
        if c.nr_vars = 0 then .ok (some (.vals [(reg s0).one]))
        else do
          let flat ← getWeightsList c
          let w0 ← headE flat
          let q0 ← getE c.quantified 0
          let second := (range1 c.nr_vars).filter (fun v => v ∉ q0)
          let res := second.foldl
            (fun res v =>
              res.zipWith (reg s1).mul
                ((flat.getD (2 * (v.toNat - 1)) []).zipWith (reg s1).add
                  (flat.getD (2 * (v.toNat - 1) + 1) [])))
            (List.replicate w0.length (reg s1).one)
          let res := res.map (fun w => (reg s0).from_value (tf w))
          let res := ((range1 c.nr_vars).filter (fun v => v ∈ q0)).foldl
            (fun res v =>
              res.zipWith (reg s0).mul
                ((flat.getD (2 * (v.toNat - 1)) []).zipWith (reg s0).add
                  (flat.getD (2 * (v.toNat - 1) + 1) [])))
            res
          .ok (some (.vals res))
      else if !sat then
        match lookupW c.weights 0 with
        | none => .error .keyError
        | some w0 => .ok (some (.vals (List.replicate w0.length (reg s0).zero)))
      else .ok none
  | _ => .ok none

/-! Evaluation dispatcher (CNF.evaluate, CNF.solve_compilation). -/

/-- One step of the evaluation dispatcher, recording which action the code
performs: the preprocessing call, the evaluate_trivial attempt, and the
four backend paths. -/
inductive EvalStep where
  | preprocess
  | trivialCheck
  | maxsat
  | wmc
  | compileSingle
  | compileTwo
  deriving DecidableEq, Repr

/-- CNF.solve_compilation as the sequence of dispatcher actions it
performs: optional preprocessing, then the evaluate_trivial attempt with an
immediate return on a hit, then single- or two-semiring compilation (more
than two semirings is a fatal error). -/
def solveCompilationTrace {V : Type} (reg : SRReg V) (tf : V → V) (sat : Bool)
    (preproc : Bool) (c : CNFData V) : Except PyErr (List EvalStep) := do
  let pre := if preproc then [EvalStep.preprocess] else []
  let r ← evaluateTrivial reg tf sat c
  match r with
  | some _ => .ok (pre ++ [.trivialCheck])
  | none =>
      if c.semirings.length ≤ 1 then .ok (pre ++ [.trivialCheck, .compileSingle])
      else if c.semirings.length = 2 then .ok (pre ++ [.trivialCheck, .compileTwo])
      else .error .formatTooManySemirings

/-- CNF.evaluate as the sequence of dispatcher actions: with the flexible
strategy, a single idempotent semiring goes straight to solve_maxsat and a
single probabilistic semiring under the sharpsat-td compiler goes straight
to solve_wmc (neither calls evaluate_trivial); every other case, and the
compilation strategy, go through solve_compilation.  The parameter kc is
the configured knowledge compiler name. -/
def evaluateTrace {V : Type} (reg : SRReg V) (tf : V → V) (sat : Bool) (kc : String)
    (c : CNFData V) (strategy : String) (preproc : Bool) : Except PyErr (List EvalStep) :=
  if strategy = "flexible" then
    if c.semirings.length = 1 ∧ (reg (c.semirings.getD 0 "")).is_idempotent then
      .ok [.maxsat]
    else if c.semirings.length = 1 ∧ kc = "sharpsat-td" ∧
        c.semirings.getD 0 "" = "aspmc.semirings.probabilistic" then
      .ok [.wmc]
    else solveCompilationTrace reg tf sat preproc c
  else if strategy = "compilation" then solveCompilationTrace reg tf sat preproc c
  else .error .unknownStrategy

/-! Tempfile registry (aspmc/signal_handling.py and the tempfile handling
in CNF.solve_maxsat and CNF.solve_wmc). -/

/-- An operation on the filesystem or on the process-wide tempfile set:
tempfile.mkstemp, my_signals.tempfiles.add, os.remove, and
my_signals.tempfiles.remove. -/
inductive ResOp where
  | mkstemp (p : String)
  | regAdd (p : String)
  | osRemove (p : String)
  | regRemove (p : String)
  deriving DecidableEq, Repr

/-- The abstract state: which files currently exist and which paths the
process-wide tempfile set holds. -/
structure ResState where
  files : List String
  registry : List String
  deriving DecidableEq, Repr

def applyOp (st : ResState) : ResOp → ResState
  | .mkstemp p => { st with files := p :: st.files }
  | .regAdd p => { st with registry := if p ∈ st.registry then st.registry else p :: st.registry }
  | .osRemove p => { st with files := st.files.erase p }
  | .regRemove p => { st with registry := st.registry.erase p }

def runOps (ops : List ResOp) (st : ResState) : ResState :=
  ops.foldl applyOp st

/-- The registry invariant claimed by the spec: a path is registered
exactly while the file exists. -/
def RegistryInv (st : ResState) : Prop :=
  ∀ p, p ∈ st.registry ↔ p ∈ st.files

/-- The tempfile operations of CNF.solve_maxsat on its pure-SAT branch, in
source order: create and register the cnf temp file, create and register
the result temp file, delete and deregister the result file, then delete
the cnf temp file followed by my_signals.tempfiles.add on the just-deleted
path (the final add is what the source performs). -/
def solveMaxsatSatOps (cnfTmp resTmp : String) : List ResOp :=
  [.mkstemp cnfTmp, .regAdd cnfTmp, .mkstemp resTmp, .regAdd resTmp,
   .osRemove resTmp, .regRemove resTmp, .osRemove cnfTmp, .regAdd cnfTmp]

/-- The tempfile operations of CNF.solve_wmc, in source order: create and
register the cnf temp file, delete it, then my_signals.tempfiles.add on the
deleted path. -/
def solveWmcOps (cnfTmp : String) : List ResOp :=
  [.mkstemp cnfTmp, .regAdd cnfTmp, .osRemove cnfTmp, .regAdd cnfTmp]

/-! Weight-to-MaxSAT reduction (CNF.write_maxsat_cnf).  The reduction first
maps the first-query weight of every literal onto a common additive scale
(log for max-times, negation for min-plus, identity for max-plus); that
conversion is transcendental float arithmetic, so the quantization below is
embedded over the post-conversion weights, given as an exact-rational map
with bottom standing for float minus infinity.  Python floats are modelled
as exact rationals. -/

/-- All literals of the variables 1..n, the support of the weight map. -/
def litsOf (n : Int) : List Int :=
  (range1 n).flatMap (fun v => [v, -v])

/-- Step discarding irrelevant variables: a literal keeps its weight
exactly when it differs from the weight of the opposite literal (which the
source reads unconditionally, so the map must be closed under negation). -/
def wIrr (w : Int → Option (WithBot ℚ)) (l : Int) : Option (WithBot ℚ) :=
  match w l with
  | none => none
  | some a => if w (-l) = some a then none else some a

/-- Literals whose surviving weight is minus infinity; these become hard
unit clauses forcing the opposite literal. -/
def negUnits (w : Int → Option (WithBot ℚ)) (n : Int) : List Int :=
  (litsOf n).filter (fun l => wIrr w l = some ⊥)

/-- Surviving finite weights after removing the minus-infinity ones. -/
def wFin (w : Int → Option (WithBot ℚ)) (l : Int) : Option ℚ :=
  (wIrr w l).bind (fun a => match a with | ⊥ => none | (q : ℚ) => some q)

/-- The per-variable normalization: with both polarities weighted, the
smaller weight is folded into the larger one, which survives alone; a
single negative weight moves, negated, to the opposite literal. -/
def normEntry (wp wn : Option ℚ) : Option ℚ × Option ℚ :=
  match wp, wn with
  | some a, some b => if a < b then (none, some (b - a)) else (some (a - b), none)
  | some a, none => if a < 0 then (none, some (-a)) else (some a, none)
  | none, some b => if b < 0 then (some (-b), none) else (none, some b)
  | none, none => (none, none)

/-- The normalized weight of a literal, as left by the loop over the
variables in write_maxsat_cnf. -/
def wNorm (w : Int → Option (WithBot ℚ)) (l : Int) : Option ℚ :=
  if 0 < l then (normEntry (wFin w l) (wFin w (-l))).1
  else (normEntry (wFin w (-l)) (wFin w l)).2

/-- The exponent max_exp: the maximum, together with 0, of the ceilings of
minus log10 over the positive surviving weights; the mathematical ceiling
of minus log10 of q is the negation of the floor of log10 of q. -/
def maxExp (w : Int → Option (WithBot ℚ)) (n : Int) : ℤ :=
  (((litsOf n).filterMap (wNorm w)).filterMap
    (fun q => if 0 < q then some (-(Int.log 10 q)) else none)).foldl max 0

/-- The power-of-ten scaling exponent 8 + max_exp as a natural number
(max_exp is at least 0). -/
def scaleExp (w : Int → Option (WithBot ℚ)) (n : Int) : ℕ :=
  (8 + maxExp w n).toNat

/-- The floor-scaled integer weight of a literal: weights of magnitude at
least 0.1 to the scaling exponent are multiplied by 10 to the scaling
exponent and floored; smaller ones are dropped. -/
def wScaled (w : Int → Option (WithBot ℚ)) (n : Int) (l : Int) : Option ℤ :=
  (wNorm w l).bind (fun q =>
    if ((1 : ℚ)/10) ^ scaleExp w n ≤ |q| then some ⌊q * 10 ^ scaleExp w n⌋ else none)

/-- The collective gcd of the scaled weights, folded up exactly as the
source does starting from 0. -/
def gcdAll (w : Int → Option (WithBot ℚ)) (n : Int) : ℕ :=
  ((litsOf n).filterMap (wScaled w n)).foldl (fun g v => Int.gcd v g) 0

/-- The scaled weights divided by their collective gcd (Python floor
division). -/
def wDiv (w : Int → Option (WithBot ℚ)) (n : Int) (l : Int) : Option ℤ :=
  (wScaled w n l).map (fun v => Int.fdiv v (gcdAll w n))

/-- The hard-clause weight: the sum of the divided soft weights plus 2. -/
def topVal (w : Int → Option (WithBot ℚ)) (n : Int) : ℤ :=
  ((litsOf n).filterMap (wDiv w n)).foldl (· + ·) 0 + 2

/-- The emitted WCNF: header numbers, hard weighted clauses and soft
weighted unit literals. -/
structure WCNFOut where
  nvars : Int
  nclauses : Int
  top : Int
  hard : List (Int × List Int)
  soft : List (Int × Int)

/-- CNF.write_maxsat_cnf after the semiring conversion: normalize and
quantize the weights, fail with the fatal overflow exit when the top weight
reaches 2 to the 63, and otherwise emit the WCNF with the original clauses
and the forced units hard at the top weight and the soft units at their
scaled weights. -/
def writeMaxsatCNF (n : Int) (clauses : List (List Int)) (w : Int → Option (WithBot ℚ)) :
    Except PyErr WCNFOut :=
  let soft := (litsOf n).filterMap (fun l => (wDiv w n l).map (fun v => (v, l)))
  let top := topVal w n
  if top ≥ 2 ^ 63 then .error .overflow
  else .ok
    { nvars := n
      nclauses := (clauses.length : Int) + soft.length
      top := top
      hard := clauses.map (fun c => (top, c)) ++ (negUnits w n).map (fun l => (top, [-l]))
      soft := soft }

/-! Tree decompositions (aspmc/graph/treedecomposition.py).  The networkx
tree is modelled by its adjacency function; bags are finite vertex sets.
The rooted structure that set_root establishes is captured by the
mathematical rooted tree RTree, and the well-formedness predicate Hangs
states that the adjacency list of each node consists of its children in
order with the parent inserted at one position, exactly the shape the
explicit-stack walks consume. -/

/-- A rooted tree of bag identifiers. -/
inductive RTree where
  | node (idx : Nat) (children : List RTree)

def RTree.rootId : RTree → Nat
  | .node i _ => i

mutual

/-- The recursive post-order listing: children first, then the node. -/
def postorderF : RTree → List Nat
  | .node i cs => postorderL cs ++ [i]

def postorderL : List RTree → List Nat
  | [] => []
  | t :: ts => postorderF t ++ postorderL ts

end

mutual

/-- The recursive pre-order listing: the node first, then its children. -/
def preorderF : RTree → List Nat
  | .node i cs => i :: preorderL cs

def preorderL : List RTree → List Nat
  | [] => []
  | t :: ts => preorderF t ++ preorderL ts

end

/-- One probe of the neighbor iterator as the stack walks do it: take the
next neighbor and, when it equals the parent, skip it once and take the
following one.  dropP performs the single parent skip on the remaining
list. -/
def dropP (p : Nat) : List Nat → List Nat
  | [] => []
  | x :: xs => if x = p then xs else x :: xs

/-- The explicit-stack post-order walk of TreeDecomposition.__iter__, with
fuel: each stack frame holds the parent, the current node and its remaining
neighbor list; an exhausted neighbor iterator yields the current node, and
otherwise the next non-parent neighbor is pushed with its own neighbor
list.  none means the fuel ran out. -/
def postRun (adj : Nat → List Nat) : Nat → List (Nat × Nat × List Nat) → Option (List Nat)
  | _, [] => some []
  | 0, _ :: _ => none
  | fuel + 1, (p, c, ns) :: rest =>
    match dropP p ns with
    | [] => (postRun adj fuel rest).map (fun l => c :: l)
    | y :: tl => postRun adj fuel ((c, y, adj y) :: (p, c, tl) :: rest)

/-- The explicit-stack pre-order walk of TreeDecomposition.bag_iter with
order pre-order, except for the initial yield of the root: a node is
yielded when it is pushed, and an exhausted frame yields nothing. -/
def preRun (adj : Nat → List Nat) : Nat → List (Nat × Nat × List Nat) → Option (List Nat)
  | _, [] => some []
  | 0, _ :: _ => none
  | fuel + 1, (p, c, ns) :: rest =>
    match dropP p ns with
    | [] => preRun adj fuel rest
    | y :: tl => (preRun adj fuel ((c, y, adj y) :: (p, c, tl) :: rest)).map (fun l => y :: l)

/-- The full post-order iteration from the root (parent sentinel 0, as the
nodes of a decomposition are numbered from 1). -/
def postIter (adj : Nat → List Nat) (root : Nat) (fuel : Nat) : Option (List Nat) :=
  postRun adj fuel [(0, root, adj root)]

/-- The full pre-order iteration from the root: the root is yielded before
the loop starts. -/
def preIter (adj : Nat → List Nat) (root : Nat) (fuel : Nat) : Option (List Nat) :=
  (preRun adj fuel [(0, root, adj root)]).map (fun l => root :: l)

/-- The way the walks consume a neighbor list: Drops p ns rs holds when
popping the frame repeatedly, with the single parent skip of dropP at each
pop, produces exactly the neighbors rs.  The parent p may sit at any single
position of ns. -/
inductive Drops (p : Nat) : List Nat → List Nat → Prop
  | nil : Drops p [] []
  | lone : Drops p [p] []
  | cons {y tl rs} : y ≠ p → Drops p tl rs → Drops p (y :: tl) (y :: rs)
  | skip {y tl rs} : Drops p tl rs → Drops p (p :: y :: tl) (y :: rs)

/-- Well-formedness of the adjacency function with respect to a rooted
tree hung under parent p: the adjacency list of the root of t consumes,
with the parent skip, exactly the roots of its children in order, and each
child subtree hangs under the root in the same way. -/
inductive Hangs (adj : Nat → List Nat) : Nat → RTree → Prop
  | mk {p i cs} : Drops p (adj i) (cs.map RTree.rootId) →
      (∀ s ∈ cs, Hangs adj i s) → Hangs adj p (.node i cs)

/-- The child relation of a rooted tree: c is the identifier of a child bag
of the bag p somewhere in t. -/
inductive ChildIn : RTree → Nat → Nat → Prop
  | here {i cs s} : s ∈ cs → ChildIn (.node i cs) s.rootId i
  | deeper {i cs s c p} : s ∈ cs → ChildIn s c p → ChildIn (.node i cs) c p

/-- Strict order of two occurrences in a list. -/
def Before (x y : Nat) (l : List Nat) : Prop :=
  ∃ l1 l2 l3, l = l1 ++ x :: l2 ++ y :: l3

/-- The tree decomposition record: the stored bag, width and vertex counts,
the root, the node list of the networkx tree, its adjacency, and the bag
contents. -/
structure TD where
  bags : Int
  width : Int
  vertices : Nat
  root : Nat
  nodes : List Nat
  adj : Nat → List Nat
  bagOf : Nat → Finset Nat

/-- get_bag: looking up the bag of a node that is not in the tree raises
KeyError, modelled as none. -/
def TD.getBag (td : TD) (i : Nat) : Option (Finset Nat) :=
  if i ∈ td.nodes then some (td.bagOf i) else none

/-- TreeDecomposition.remove: iterate over the bags in post-order and
delete the given vertices from each visited bag; nothing else is touched.
none means the iteration fuel ran out. -/
def TD.removeRun (td : TD) (fuel : Nat) (s : Finset Nat) : Option TD :=
  (postIter td.adj td.root fuel).map (fun order =>
    { td with bagOf := fun i => if i ∈ order then td.bagOf i \ s else td.bagOf i })

/-- Outcome of find_centroid: either a bag identifier is returned, or the
walk fails (the KeyError of get_bag on the sentinel parent of the root when
no accumulated count ever exceeds half the vertices). -/
inductive CentOut where
  | found (b : Nat)
  | err
  deriving DecidableEq, Repr

/-- The explicit-stack walk of find_centroid, with fuel: frames carry the
accumulated count of vertices introduced in the already-finished subtrees
of the current node.  When a frame finishes, the vertices of its bag not in
the parent bag are added to the count, the parent frame is popped, and the
parent is returned as centroid as soon as its accumulated count together
with the finished subtree count exceeds half the vertices. -/
def centRun (adj : Nat → List Nat) (bag : Nat → Option (Finset Nat)) (half : Nat) :
    Nat → List (Nat × Nat × List Nat × Nat) → Option CentOut
  | _, [] => some .err
  | 0, _ :: _ => none
  | fuel + 1, (p, c, ns, cnt) :: rest =>
    match dropP p ns with
    | y :: tl => centRun adj bag half fuel ((c, y, adj y, 0) :: (p, c, tl, cnt) :: rest)
    | [] =>
      match bag p, bag c with
      | some pb, some cb =>
        let here := ((cb \ pb).card + cnt : Nat)
        match rest with
        | [] => some .err
        | (pp, pc, pn, pcnt) :: rest' =>
          if half < here + pcnt then some (.found pc)
          else centRun adj bag half fuel ((pp, pc, pn, pcnt + here) :: rest')
      | _, _ => some .err

/-- TreeDecomposition.find_centroid: a single bag returns 1 immediately,
otherwise the stack walk runs from the root with the sentinel parent 0. -/
def findCentroid (td : TD) (fuel : Nat) : Option CentOut :=
  if td.bags = 1 then some (.found 1)
  else centRun td.adj td.getBag (td.vertices / 2) fuel [(0, td.root, td.adj td.root, 0)]

mutual

/-- The number of vertices a subtree introduces relative to the parent bag
pb: the vertices of its root bag outside pb plus the contributions of its
children relative to the root bag. -/
def centW (bag : Nat → Finset Nat) (pb : Finset Nat) : RTree → Nat
  | .node i cs => (bag i \ pb).card + centWL bag (bag i) cs

def centWL (bag : Nat → Finset Nat) (pb : Finset Nat) : List RTree → Nat
  | [] => 0
  | t :: ts => centW bag pb t + centWL bag pb ts

end

mutual

/-- The recursive first-trigger search matching the walk: processing a
subtree either finds the centroid inside it (error b) or completes with the
subtree weight (ok).  Processing the child list of node i accumulates
finished child weights into acc and returns i as soon as a finished child
pushes the accumulation above half. -/
def centSearch (bag : Nat → Finset Nat) (half : Nat) (pb : Finset Nat) :
    RTree → Except Nat Nat
  | .node i cs => do
      let acc ← centSearchL bag half (bag i) i cs 0
      Except.ok ((bag i \ pb).card + acc)

def centSearchL (bag : Nat → Finset Nat) (half : Nat) (cb : Finset Nat) (i : Nat) :
    List RTree → Nat → Except Nat Nat
  | [], acc => Except.ok acc
  | s :: ss, acc => do
      let w ← centSearch bag half cb s
      if half < w + acc then Except.error i
      else centSearchL bag half cb i ss (acc + w)

end

/-- What find_centroid computes on a rooted tree with more than one bag:
the first bag, in the post-order sequence of subtree completions, whose
accumulated count exceeds half the vertices; when no completion ever
exceeds half, the root frame finishes and the lookup of the bag of the
sentinel parent fails. -/
def centroidSpec (bag : Nat → Finset Nat) (half : Nat) : RTree → CentOut
  | .node r cs =>
      match centSearchL bag half (bag r) r cs 0 with
      | .error b => .found b
      | .ok _ => .err

/-! Concrete instances used to evaluate the embedded code on specific
inputs. -/

/-- A concrete semiring implementation over strings, standing in for any
registered module (values and strings coincide, and the module reports
itself idempotent, as aspmc.semirings.maxtimes does). -/
def trivSR : SR String :=
  { parse := id
    to_string := id
    add := fun a _ => a
    mul := fun a _ => a
    zero := "zero"
    one := "one"
    from_value := id
    is_idempotent := true }

/-- A concrete registry resolving every module name to trivSR. -/
def reg0 : SRReg String := fun _ => trivSR

/-- A two-semiring CNF that is unsatisfiable after trivial-clause removal:
clauses [1] and [-1] over two variables, with weights for all four
literals. -/
def cnf3 : CNFData String :=
  { clauses := [[1], [-1]]
    nr_vars := 2
    weights := [(1, ["a"]), (-1, ["b"]), (2, ["c"]), (-2, ["d"])]
    semirings := ["s1", "s2"]
    quantified := [[1], [2]]
    transform := some [Token.word "lam"] }

/-- A trivially evaluable CNF over one idempotent semiring: no clauses, no
variables. -/
def cnf4 : CNFData String :=
  { clauses := []
    nr_vars := 0
    weights := []
    semirings := ["aspmc.semirings.maxtimes"]
    quantified := [[]]
    transform := none }

/-- Token lines whose semirings property line is not terminated by the 0
sentinel. -/
def lines5 : List (List Token) :=
  [[Token.word "p", Token.word "cnf", Token.num 1, Token.num 0],
   [Token.word "c", Token.word "p", Token.word "semirings",
    Token.word "aspmc.semirings.probabilistic"]]

/-- A tree decomposition with two equal bags over the vertices 1 and 2:
every vertex already occurs in the root bag, so no subtree ever introduces
a vertex and no accumulated count can exceed half the vertices. -/
def td9 : TD :=
  { bags := 2
    width := 1
    vertices := 2
    root := 1
    nodes := [1, 2]
    adj := fun i => if i = 1 then [2] else if i = 2 then [1] else []
    bagOf := fun _ => {1, 2} }

/-- Total version of srNameFor, used to state round-trip images; it agrees
with srNameFor whenever the latter succeeds. -/
def srNameD {V : Type} (c : CNFData V) (idx : Int) : String :=
  match srNameFor c.quantified c.semirings idx with
  | .ok n => n
  | .error _ => ""

/-- The weight-value round trip through the format and parse functions of
the semiring chosen for the literal. -/
def reWeight {V : Type} (reg : SRReg V) (c : CNFData V) (idx : Int) (ws : List V) : List V :=
  ws.map (fun v => (reg (srNameD c idx)).parse ((reg (srNameD c idx)).to_string v))

/-- The spec invariants of a valid weighted CNF that the round-trip
property presupposes: equally many semirings and quantification levels, at
most two semirings, a transform whenever there are two semirings, distinct
weight keys, and every weighted literal resolvable to its semiring (it
belongs to a quantification level with the corresponding semiring
declared). -/
structure ValidCNF {V : Type} (c : CNFData V) : Prop where
  counts : c.quantified.length = c.semirings.length
  le_two : c.semirings.length ≤ 2
  transform_two : c.semirings.length = 2 → c.transform ≠ none
  keys_nodup : (c.weights.map Prod.fst).Nodup
  sr_ok : ∀ p ∈ c.weights, ∃ name, srNameFor c.quantified c.semirings p.1 = .ok name

/-- A valid single-semiring weighted CNF used to instantiate the
round-trip theorem. -/
def cnf1w : CNFData String :=
  { clauses := [[1, -2], [2]]
    nr_vars := 2
    weights := [(1, ["a", "b"]), (-1, ["c", "d"])]
    semirings := ["s1"]
    quantified := [[1, 2]]
    transform := none }

/-- Token lines with a quantify level but no semirings, tripping the
count-mismatch check. -/
def lines5m : List (List Token) :=
  [[Token.word "p", Token.word "cnf", Token.num 1, Token.num 0],
   [Token.word "c", Token.word "p", Token.word "quantify", Token.num 1, Token.num 0]]

/-- The weight vector a literal maps to (empty when the literal has no
declared weight). -/
def wOf {V : Type} (c : CNFData V) (l : Int) : List V :=
  (lookupW c.weights l).getD []

/-- The claim-side product: per query position, the product over the
variables 1..nr_vars of weight(v) + weight(-v), as an elementwise fold of
the weight vectors starting from the all-ones vector of the query count. -/
def specProdVec {V : Type} (sr : SR V) (c : CNFData V) (q : Nat) : List V :=
  (range1 c.nr_vars).foldl
    (fun res v => res.zipWith sr.mul ((wOf c v).zipWith sr.add (wOf c (-v))))
    (List.replicate q sr.one)

/-- A one-variable single-semiring CNF without clauses. -/
def cnf2a : CNFData String :=
  { clauses := []
    nr_vars := 1
    weights := [(1, ["a"]), (-1, ["b"])]
    semirings := ["s1"]
    quantified := [[1]]
    transform := none }

/-- A two-variable CNF with no semirings and only a trivial clause. -/
def cnf2b : CNFData String :=
  { clauses := [[1, -1]]
    nr_vars := 2
    weights := []
    semirings := []
    quantified := []
    transform := none }

/-- A concrete post-conversion weight map over one variable: weight 1/2 on
the positive literal and 1/4 on the negative one. -/
def w6 (l : Int) : Option (WithBot ℚ) :=
  if l = 1 then some ((1 / 2 : ℚ) : WithBot ℚ)
  else if l = -1 then some ((1 / 4 : ℚ) : WithBot ℚ)
  else none

/-- The post-order walk can reach output out from the given stack with
some amount of fuel. -/
def RunsP (adj : Nat → List Nat) (stack : List (Nat × Nat × List Nat)) (out : List Nat) : Prop :=
  ∃ fuel, postRun adj fuel stack = some out

/-- The pre-order walk can reach output out from the given stack with some
amount of fuel. -/
def RunsPre (adj : Nat → List Nat) (stack : List (Nat × Nat × List Nat)) (out : List Nat) : Prop :=
  ∃ fuel, preRun adj fuel stack = some out

/-- The centroid walk can reach outcome r from the given stack with some
amount of fuel. -/
def RunsC (adj : Nat → List Nat) (bag : Nat → Option (Finset Nat)) (half : Nat)
    (stack : List (Nat × Nat × List Nat × Nat)) (r : CentOut) : Prop :=
  ∃ fuel, centRun adj bag half fuel stack = some r

/-- A concrete three-bag star adjacency: bag 1 is the root with children 2
and 3. -/
def adjW : Nat → List Nat :=
  fun i => if i = 1 then [2, 3] else if i = 2 then [1] else if i = 3 then [1] else []

/-- The rooted tree of adjW. -/
def tW : RTree := .node 1 [.node 2 [], .node 3 []]

/-- A two-bag decomposition whose child bag introduces three vertices over
the root bag, triggering the centroid check at the root. -/
def tdW : TD :=
  { bags := 2
    width := 3
    vertices := 4
    root := 1
    nodes := [1, 2]
    adj := fun i => if i = 1 then [2] else if i = 2 then [1] else []
    bagOf := fun i => if i = 1 then {1} else {1, 2, 3, 4} }

/-- The rooted tree of tdW. -/
def tWc : RTree := .node 1 [.node 2 []]

/-- A three-bag decomposition over adjW, used to instantiate the remove
frame property. -/
def tdR : TD :=
  { bags := 3
    width := 1
    vertices := 2
    root := 1
    nodes := [1, 2, 3]
    adj := adjW
    bagOf := fun i => if i = 1 then {1} else if i = 2 then {1, 2} else {2} }

/-- The step property of the centroid walk for a subtree hung under parent
p: whatever the parent frame would do with the finished subtree weight (a
trigger check against the accumulated count, then a fold into the parent
count) determines the outcome of running the walk with the subtree frame on
top. -/
def TreeStepC (adj : Nat → List Nat) (bag : Nat → Option (Finset Nat))
    (bagF : Nat → Finset Nat) (half : Nat) (p : Nat) (t : RTree) : Prop :=
  ∀ (pb : Finset Nat), bag p = some pb →
  ∀ (pp pc : Nat) (pn : List Nat) (pcnt : Nat)
    (rest2 : List (Nat × Nat × List Nat × Nat)) (r : CentOut),
  (∀ w, centSearch bagF half pb t = Except.ok w →
     (if half < w + pcnt then r = CentOut.found pc
      else RunsC adj bag half ((pp, pc, pn, pcnt + w) :: rest2) r)) →
  (∀ b, centSearch bagF half pb t = Except.error b → r = CentOut.found b) →
  RunsC adj bag half ((p, t.rootId, adj t.rootId, 0) :: (pp, pc, pn, pcnt) :: rest2) r

/-! Helper lemmas.  None of the claim theorems below is used by any other
declaration; the shared reasoning lives in these lemmas. -/

lemma mapM_asInt_num (l : List Int) : (l.map Token.num).mapM asInt = .ok l := by
  induction l with
  | nil => rfl
  | cons x xs ih =>
      rw [List.map_cons, List.mapM_cons]
      simp only [ih, asInt]
      rfl

lemma mapM_asName_word (l : List String) : (l.map Token.word).mapM asName = .ok l := by
  induction l with
  | nil => rfl
  | cons x xs ih =>
      rw [List.map_cons, List.mapM_cons]
      simp only [ih, asName]
      rfl

lemma parseLine_pline (st : RawCNF) (n m : Int) :
    parseLine st [.word "p", .word "cnf", .num n, .num m] = .ok { st with nr_vars := n } := rfl

lemma parseLine_num_head (st : RawCNF) (x : Int) (rest : List Token) :
    parseLine st (Token.num x :: rest) =
      (Token.num x :: rest).mapM asInt >>= fun lits =>
        .ok { st with clauses := st.clauses ++ [lits.dropLast] } := by
  simp [parseLine]

lemma parseLine_clause (st : RawCNF) (cl : List Int) :
    parseLine st (cl.map Token.num ++ [Token.num 0]) =
      .ok { st with clauses := st.clauses ++ [cl] } := by
  have key : ((cl.map Token.num ++ [Token.num 0]).mapM asInt) = .ok (cl ++ [0]) := by
    have h : cl.map Token.num ++ [Token.num 0] = (cl ++ [0]).map Token.num := by simp
    rw [h, mapM_asInt_num]
  cases cl with
  | nil => rfl
  | cons x xs =>
      have h2 : (x :: xs ++ [(0 : Int)]).dropLast = x :: xs := List.dropLast_concat
      rw [List.map_cons, List.cons_append, parseLine_num_head, ← List.cons_append,
        ← List.map_cons, key]
      exact congrArg
        (fun cl => (Except.ok { st with clauses := st.clauses ++ [cl] } : Except PyErr RawCNF)) h2

lemma parseLine_quantify (st : RawCNF) (vs : List Int) (t : Token) :
    parseLine st (Token.word "c" :: Token.word "p" :: Token.word "quantify" ::
      (vs.map Token.num ++ [t])) =
      .ok { st with quantified := st.quantified ++ [vs] } := by
  have hd : ((vs.map Token.num ++ [t]).dropLast) = vs.map Token.num :=
    List.dropLast_concat
  simp [parseLine, hd, mapM_asInt_num]
  rw [show List.mapM.loop asInt (List.map Token.num vs) [] = (Except.ok vs : Except PyErr (List Int))
    from mapM_asInt_num vs]
  rfl

lemma parseLine_semirings (st : RawCNF) (names : List String) (t : Token) :
    parseLine st (Token.word "c" :: Token.word "p" :: Token.word "semirings" ::
      (names.map Token.word ++ [t])) =
      .ok { st with semirings := names } := by
  have hd : ((names.map Token.word ++ [t]).dropLast) = names.map Token.word :=
    List.dropLast_concat
  simp [parseLine, hd, mapM_asName_word]
  rw [show List.mapM.loop asName (List.map Token.word names) [] =
    (Except.ok names : Except PyErr (List String)) from mapM_asName_word names]
  rfl

lemma parseLine_transform (st : RawCNF) (ts : List Token) (t : Token) :
    parseLine st (Token.word "c" :: Token.word "p" :: Token.word "transform" ::
      (ts ++ [t])) =
      .ok { st with transform := some ts } := by
  have hd : ((ts ++ [t]).dropLast) = ts := List.dropLast_concat
  simp [parseLine, hd]

lemma parseLine_weight (st : RawCNF) (idx : Int) (ps : List String) (t : Token) :
    parseLine st [Token.word "c", Token.word "p", Token.word "weight", Token.num idx,
      Token.vals ps, t] =
      .ok { st with weights := dictInsert st.weights idx [Token.vals ps] } := by
  simp [parseLine, asInt]
  rfl

lemma exbind_ok {α β : Type} (a : α) (f : α → Except PyErr β) :
    ((Except.ok a : Except PyErr α) >>= f) = f a := rfl

lemma foldlM_clauses (cls : List (List Int)) (st : RawCNF) :
    (cls.map (fun cl => cl.map Token.num ++ [Token.num 0])).foldlM parseLine st =
      .ok { st with clauses := st.clauses ++ cls } := by
  induction cls generalizing st with
  | nil => simp only [List.map_nil, List.foldlM_nil, List.append_nil]; rfl
  | cons cl cls ih =>
      rw [List.map_cons, List.foldlM_cons, parseLine_clause]
      simp only [exbind_ok]
      rw [ih]
      simp

lemma dictInsert_fresh {β : Type} (l : List (Int × β)) (k : Int) (v : β)
    (h : ∀ q ∈ l, q.1 ≠ k) : dictInsert l k v = l ++ [(k, v)] := by
  have hany : l.any (fun p => p.1 = k) = false := by
    rw [List.any_eq_false]
    intro x hx
    simpa using h x hx
  simp [dictInsert, hany]

lemma srNameD_eq {V : Type} (c : CNFData V) (idx : Int) (name : String)
    (h : srNameFor c.quantified c.semirings idx = .ok name) : srNameD c idx = name := by
  simp [srNameD, h]

lemma weightLine_eq {V : Type} (reg : SRReg V) (c : CNFData V) (idx : Int) (ws : List V)
    (name : String) (h : srNameFor c.quantified c.semirings idx = .ok name) :
    weightLine reg c idx ws =
      .ok [Token.word "c", Token.word "p", Token.word "weight", Token.num idx,
        Token.vals (ws.map (reg name).to_string), Token.num 0] := by
  rw [weightLine, h]
  rfl

lemma mapM_weightLine {V : Type} (reg : SRReg V) (c : CNFData V) :
    ∀ ws : List (Int × List V),
    (∀ p ∈ ws, ∃ name, srNameFor c.quantified c.semirings p.1 = .ok name) →
    ws.mapM (fun p => weightLine reg c p.1 p.2) =
      .ok (ws.map (fun p =>
        [Token.word "c", Token.word "p", Token.word "weight", Token.num p.1,
         Token.vals (p.2.map (reg (srNameD c p.1)).to_string), Token.num 0])) := by
  intro ws h
  induction ws with
  | nil => rfl
  | cons p ps ih =>
      obtain ⟨name, hname⟩ := h p (by simp)
      rw [List.mapM_cons, weightLine_eq reg c p.1 p.2 name hname,
        ih (fun q hq => h q (by simp [hq]))]
      simp [srNameD_eq c p.1 name hname]
      rfl

lemma foldlM_weights {V : Type} (reg : SRReg V) (c : CNFData V) :
    ∀ (ws : List (Int × List V)) (st : RawCNF),
    (ws.map Prod.fst).Nodup →
    (∀ p ∈ ws, ∀ q ∈ st.weights, q.1 ≠ p.1) →
    ((ws.map (fun p =>
        [Token.word "c", Token.word "p", Token.word "weight", Token.num p.1,
         Token.vals (p.2.map (reg (srNameD c p.1)).to_string), Token.num 0])).foldlM
      parseLine st) =
      .ok { st with weights :=
        st.weights ++ ws.map (fun p => (p.1, [Token.vals (p.2.map (reg (srNameD c p.1)).to_string)])) } := by
  intro ws
  induction ws with
  | nil => intro st _ _; simp only [List.map_nil, List.foldlM_nil, List.append_nil]; rfl
  | cons p ps ih =>
      intro st hnd hfresh
      rw [List.map_cons, List.foldlM_cons, parseLine_weight,
        dictInsert_fresh st.weights p.1 _ (fun q hq => hfresh p (by simp) q hq)]
      simp only [exbind_ok]
      have hnd' : (ps.map Prod.fst).Nodup := by
        simpa using hnd.of_cons
      have hfresh' : ∀ p' ∈ ps, ∀ q ∈ st.weights ++ [(p.1, [Token.vals (p.2.map (reg (srNameD c p.1)).to_string)])], q.1 ≠ p'.1 := by
        intro p' hp' q hq
        rcases List.mem_append.mp hq with hq | hq
        · exact hfresh p' (by simp [hp']) q hq
        · have hq' : q = (p.1, [Token.vals (p.2.map (reg (srNameD c p.1)).to_string)]) := by
            simpa using hq
          subst hq'
          have : p.1 ∉ ps.map Prod.fst := by
            have := hnd
            rw [List.map_cons, List.nodup_cons] at this
            exact this.1
          intro hcontra
          exact this (hcontra ▸ List.mem_map_of_mem Prod.fst hp')
      rw [ih _ hnd' hfresh']
      simp

lemma foldlM_quantify (qs : List (List Int)) (st : RawCNF) :
    ((qs.map (fun l =>
        [Token.word "c", Token.word "p", Token.word "quantify"] ++ l.map Token.num ++ [Token.num 0])).foldlM
      parseLine st) = .ok { st with quantified := st.quantified ++ qs } := by
  induction qs generalizing st with
  | nil => simp only [List.map_nil, List.foldlM_nil, List.append_nil]; rfl
  | cons q qs ih =>
      rw [List.map_cons, List.foldlM_cons]
      have hline : ([Token.word "c", Token.word "p", Token.word "quantify"] ++ q.map Token.num ++ [Token.num 0]) =
          (Token.word "c" :: Token.word "p" :: Token.word "quantify" :: (q.map Token.num ++ [Token.num 0])) := by
        simp
      rw [hline, parseLine_quantify]
      simp only [exbind_ok]
      rw [ih]
      simp

lemma foldlM_chain (L1 L2 : List (List Token)) (st st' : RawCNF)
    (res : Except PyErr RawCNF)
    (h1 : L1.foldlM parseLine st = .ok st') (h2 : L2.foldlM parseLine st' = res) :
    (L1 ++ L2).foldlM parseLine st = res := by
  rw [List.foldlM_append, h1]
  simpa only [exbind_ok] using h2

lemma foldlM_semirings_seg (st : RawCNF) (names : List String) (hst : st.semirings = []) :
    ((if names.length > 0 then
        [[Token.word "c", Token.word "p", Token.word "semirings"] ++ names.map Token.word
          ++ [Token.num 0]]
      else ([] : List (List Token))).foldlM parseLine st) =
      .ok { st with semirings := names } := by
  cases names with
  | nil =>
      rcases st with ⟨cl, nv, w, sr, q, tr⟩
      simp only at hst
      subst hst
      rfl
  | cons n ns =>
      have hpos : (n :: ns).length > 0 := by simp
      rw [if_pos hpos]
      have : ([Token.word "c", Token.word "p", Token.word "semirings"]
          ++ (n :: ns).map Token.word ++ [Token.num 0]) =
          (Token.word "c" :: Token.word "p" :: Token.word "semirings" ::
            ((n :: ns).map Token.word ++ [Token.num 0])) := by simp
      rw [show ([[Token.word "c", Token.word "p", Token.word "semirings"]
          ++ (n :: ns).map Token.word ++ [Token.num 0]] : List (List Token)).foldlM parseLine st
          = parseLine st ([Token.word "c", Token.word "p", Token.word "semirings"]
            ++ (n :: ns).map Token.word ++ [Token.num 0]) >>= fun st' =>
              ([] : List (List Token)).foldlM parseLine st' from List.foldlM_cons _ _ _ _,
        this, parseLine_semirings]
      rfl

lemma foldlM_transform_seg (st : RawCNF) (tr : Option (List Token)) (hst : st.transform = none) :
    ((match tr with
      | some ts => [[Token.word "c", Token.word "p", Token.word "transform"] ++ ts ++ [Token.num 0]]
      | none => ([] : List (List Token))).foldlM parseLine st) =
      .ok { st with transform := tr } := by
  cases tr with
  | none =>
      rcases st with ⟨cl, nv, w, sr, q, tr0⟩
      simp only at hst
      subst hst
      rfl
  | some ts =>
      have : ([Token.word "c", Token.word "p", Token.word "transform"] ++ ts ++ [Token.num 0]) =
          (Token.word "c" :: Token.word "p" :: Token.word "transform" :: (ts ++ [Token.num 0])) := by
        simp
      rw [show ([[Token.word "c", Token.word "p", Token.word "transform"] ++ ts ++ [Token.num 0]] :
          List (List Token)).foldlM parseLine st
          = parseLine st ([Token.word "c", Token.word "p", Token.word "transform"] ++ ts
            ++ [Token.num 0]) >>= fun st' =>
              ([] : List (List Token)).foldlM parseLine st' from List.foldlM_cons _ _ _ _,
        this, parseLine_transform]
      rfl

lemma mapM_convert {V : Type} (reg : SRReg V) (c : CNFData V) :
    ∀ ws : List (Int × List V),
    (∀ p ∈ ws, ∃ name, srNameFor c.quantified c.semirings p.1 = .ok name) →
    ((ws.map (fun p => (p.1, [Token.vals (p.2.map (reg (srNameD c p.1)).to_string)]))).mapM
      (fun p => do
        let name ← srNameFor c.quantified c.semirings p.1
        Except.ok (p.1, (payloadParts p.2).map (reg name).parse)))
    = .ok (ws.map (fun p => (p.1, reWeight reg c p.1 p.2))) := by
  intro ws h
  induction ws with
  | nil => rfl
  | cons p ps ih =>
      obtain ⟨name, hname⟩ := h p (by simp)
      rw [List.map_cons, List.mapM_cons]
      have hfun : (do
          let n ← srNameFor c.quantified c.semirings p.1
          Except.ok (p.1, (payloadParts [Token.vals (p.2.map (reg (srNameD c p.1)).to_string)]).map
            (reg n).parse)) =
          (Except.ok (p.1, reWeight reg c p.1 p.2) : Except PyErr (Int × List V)) := by
        rw [hname]
        simp only [exbind_ok, payloadParts, List.map_map]
        simp only [reWeight, srNameD_eq c p.1 name hname]
        rfl
      rw [hfun, ih (fun q hq => h q (by simp [hq]))]
      rfl

lemma finishParse_final {V : Type} (reg : SRReg V) (c : CNFData V) (h : ValidCNF c) :
    finishParse reg
      { clauses := c.clauses, nr_vars := c.nr_vars,
        weights := c.weights.map (fun p =>
          (p.1, [Token.vals (p.2.map (reg (srNameD c p.1)).to_string)])),
        semirings := c.semirings, quantified := c.quantified, transform := c.transform } =
    .ok { c with weights := c.weights.map (fun p => (p.1, reWeight reg c p.1 p.2)) } := by
  rw [finishParse]
  rw [if_neg (by simp [h.counts])]
  rw [if_neg (by simpa using h.le_two)]
  rw [if_neg (by
    rintro ⟨h2, hnone⟩
    exact h.transform_two h2 hnone)]
  rw [mapM_convert reg c c.weights h.sr_ok]
  rfl

/-- The serialized token lines of a CNF whose weight semirings all
resolve. -/
lemma serializeCNF_ok {V : Type} (reg : SRReg V) (c : CNFData V)
    (h : ∀ p ∈ c.weights, ∃ name, srNameFor c.quantified c.semirings p.1 = .ok name) :
    serializeCNF reg c = .ok
      ([[Token.word "p", Token.word "cnf", Token.num c.nr_vars, Token.num c.clauses.length]]
        ++ c.clauses.map (fun cl => cl.map Token.num ++ [Token.num 0])
        ++ c.weights.map (fun p =>
            [Token.word "c", Token.word "p", Token.word "weight", Token.num p.1,
             Token.vals (p.2.map (reg (srNameD c p.1)).to_string), Token.num 0])
        ++ (if c.semirings.length > 0 then
              [[Token.word "c", Token.word "p", Token.word "semirings"]
                ++ c.semirings.map Token.word ++ [Token.num 0]]
            else [])
        ++ (match c.transform with
            | some ts => [[Token.word "c", Token.word "p", Token.word "transform"] ++ ts
                ++ [Token.num 0]]
            | none => [])
        ++ c.quantified.map (fun l =>
              [Token.word "c", Token.word "p", Token.word "quantify"] ++ l.map Token.num
                ++ [Token.num 0])) := by
  rw [serializeCNF, mapM_weightLine reg c c.weights h]
  rfl

lemma mem_range1 {n : Int} {v : Int} (hv : v ∈ range1 n) :
    ∃ i : Nat, i < n.toNat ∧ v = (i : Int) + 1 := by
  unfold range1 at hv
  obtain ⟨i, hi, hvi⟩ := List.mem_map.mp hv
  exact ⟨i, List.mem_range.mp hi, hvi.symm⟩

lemma mapM_lookup_ok {V : Type} (f : Nat → Option (List V)) :
    ∀ l : List Nat, (∀ i ∈ l, (f i).isSome) →
    (l.mapM (fun i => match f i with
      | some ws => Except.ok ws
      | none => Except.error PyErr.keyError) : Except PyErr (List (List V)))
    = .ok (l.map (fun i => (f i).getD [])) := by
  intro l h
  induction l with
  | nil => rfl
  | cons x xs ih =>
      rw [List.mapM_cons]
      obtain ⟨ws, hws⟩ := Option.isSome_iff_exists.mp (h x (by simp))
      rw [hws, ih (fun i hi => h i (by simp [hi])), List.map_cons, hws]
      rfl

lemma getWeightsList_ok {V : Type} (c : CNFData V)
    (hkey : ∀ i, i < c.weights.length → (lookupW c.weights (to_dimacs i)).isSome) :
    getWeightsList c = .ok ((List.range c.weights.length).map
      (fun i => (lookupW c.weights (to_dimacs i)).getD [])) := by
  rw [getWeightsList]
  exact mapM_lookup_ok _ _ (fun i hi => hkey i (List.mem_range.mp hi))

lemma getD_map_range {V : Type} (g : Nat → List V) (m j : Nat) (hj : j < m) :
    (((List.range m).map g).getD j ([] : List V)) = g j := by
  rw [List.getD_eq_getElem?_getD, List.getElem?_map, List.getElem?_range hj]
  rfl

lemma to_dimacs_even (i : Nat) : to_dimacs (2 * i) = (i : Int) + 1 := by
  rw [to_dimacs, if_pos (by omega)]
  congr 1
  omega

lemma to_dimacs_odd (i : Nat) : to_dimacs (2 * i + 1) = -((i : Int) + 1) := by
  rw [to_dimacs, if_neg (by omega)]
  push_cast [Nat.mul_add_div (by norm_num : 0 < 2)]
  norm_num

lemma fold_double : ∀ (m : Nat) (x : Int),
    (List.range m).foldl
      (fun res _ => res.zipWith (· * ·) ([(1 : Int)].zipWith (· + ·) [1])) [x]
    = [x * 2 ^ m] := by
  intro m
  induction m with
  | zero => intro x; simp
  | succ m ih =>
      intro x
      rw [List.range_succ, List.foldl_append, ih x]
      show [x * 2 ^ m * 2] = [x * 2 ^ (m + 1)]
      rw [mul_assoc, ← pow_succ]

lemma foldl_zip_get {V : Type} (mul add : V → V → V) (d : V) (q : Nat) :
    ∀ (pairs : List (List V × List V)) (res : List V), res.length = q →
    (∀ p ∈ pairs, p.1.length = q ∧ p.2.length = q) →
    (pairs.foldl (fun r p => r.zipWith mul (p.1.zipWith add p.2)) res).length = q ∧
    (∀ j, j < q → (pairs.foldl (fun r p => r.zipWith mul (p.1.zipWith add p.2)) res).get? j =
      some (pairs.foldl (fun a p => mul a (add ((p.1.get? j).getD d) ((p.2.get? j).getD d)))
        ((res.get? j).getD d))) := by
  intro pairs
  induction pairs with
  | nil =>
      intro res hres _
      refine ⟨hres, fun j hj => ?_⟩
      simp only [List.foldl_nil]
      rw [List.get?_eq_get (show j < res.length by omega)]
      rfl
  | cons p ps ih =>
      intro res hres hlens
      have hp := hlens p (by simp)
      have hres' : (res.zipWith mul (p.1.zipWith add p.2)).length = q := by
        simp [List.length_zipWith, hres, hp.1, hp.2]
      have hrec := ih (res.zipWith mul (p.1.zipWith add p.2)) hres'
        (fun p' hp' => hlens p' (by simp [hp']))
      refine ⟨by simpa using hrec.1, ?_⟩
      intro j hj
      rw [List.foldl_cons, List.foldl_cons]
      rw [(hrec.2 j hj)]
      congr 1
      have hxr : ∃ x, res.get? j = some x := by
        rw [List.get?_eq_get (by omega : j < res.length)]; exact ⟨_, rfl⟩
      have hx1 : ∃ x, p.1.get? j = some x := by
        rw [List.get?_eq_get (by rw [hp.1]; exact hj : j < p.1.length)]; exact ⟨_, rfl⟩
      have hx2 : ∃ x, p.2.get? j = some x := by
        rw [List.get?_eq_get (by rw [hp.2]; exact hj : j < p.2.length)]; exact ⟨_, rfl⟩
      obtain ⟨xr, hxr⟩ := hxr
      obtain ⟨x1, hx1⟩ := hx1
      obtain ⟨x2, hx2⟩ := hx2
      rw [List.get?_zipWith', List.get?_zipWith', hxr, hx1, hx2]
      simp

lemma le_foldl_max_init (l : List ℤ) : ∀ init : ℤ, init ≤ l.foldl max init := by
  induction l with
  | nil => intro init; simp
  | cons x xs ih =>
      intro init
      calc init ≤ max init x := le_max_left _ _
        _ ≤ xs.foldl max (max init x) := ih _

lemma foldl_max_le_of_mem {l : List ℤ} {x : ℤ} (hx : x ∈ l) :
    ∀ init : ℤ, x ≤ l.foldl max init := by
  induction l with
  | nil => cases hx
  | cons y ys ih =>
      intro init
      rcases List.mem_cons.mp hx with rfl | hmem
      · calc x ≤ max init x := le_max_right _ _
          _ ≤ ys.foldl max (max init x) := le_foldl_max_init _ _
      · exact ih hmem _

lemma maxExp_nonneg (w : Int → Option (WithBot ℚ)) (n : Int) : 0 ≤ maxExp w n :=
  le_foldl_max_init _ 0

lemma normEntry_fst_nonneg {a b : Option ℚ} {q : ℚ} (h : (normEntry a b).1 = some q) :
    0 ≤ q := by
  rcases a with _ | a <;> rcases b with _ | b <;> simp only [normEntry] at h
  · simp at h
  · rcases lt_or_le b 0 with hb | hb
    · rw [if_pos hb] at h
      obtain rfl : -b = q := by simpa using h
      linarith
    · rw [if_neg (not_lt.mpr hb)] at h
      simp at h
  · rcases lt_or_le a 0 with ha | ha
    · rw [if_pos ha] at h
      simp at h
    · rw [if_neg (not_lt.mpr ha)] at h
      obtain rfl : a = q := by simpa using h
      linarith
  · rcases lt_or_le a b with hab | hab
    · rw [if_pos hab] at h
      simp at h
    · rw [if_neg (not_lt.mpr hab)] at h
      obtain rfl : a - b = q := by simpa using h
      linarith

lemma normEntry_snd_nonneg {a b : Option ℚ} {q : ℚ} (h : (normEntry a b).2 = some q) :
    0 ≤ q := by
  rcases a with _ | a <;> rcases b with _ | b <;> simp only [normEntry] at h
  · simp at h
  · rcases lt_or_le b 0 with hb | hb
    · rw [if_pos hb] at h
      simp at h
    · rw [if_neg (not_lt.mpr hb)] at h
      obtain rfl : b = q := by simpa using h
      linarith
  · rcases lt_or_le a 0 with ha | ha
    · rw [if_pos ha] at h
      obtain rfl : -a = q := by simpa using h
      linarith
    · rw [if_neg (not_lt.mpr ha)] at h
      simp at h
  · rcases lt_or_le a b with hab | hab
    · rw [if_pos hab] at h
      obtain rfl : b - a = q := by simpa using h
      linarith
    · rw [if_neg (not_lt.mpr hab)] at h
      simp at h

lemma wNorm_nonneg {w : Int → Option (WithBot ℚ)} {l : Int} {q : ℚ}
    (h : wNorm w l = some q) : 0 ≤ q := by
  rw [wNorm] at h
  split at h
  · exact normEntry_fst_nonneg h
  · exact normEntry_snd_nonneg h

lemma wFin_some_w {w : Int → Option (WithBot ℚ)} {l : Int} {q : ℚ}
    (h : wFin w l = some q) : (w l).isSome := by
  rw [wFin, wIrr] at h
  rcases hw : w l with _ | a
  · rw [hw] at h; exact absurd h (by simp)
  · rfl

lemma wNorm_some_w {w : Int → Option (WithBot ℚ)} {l : Int} {q : ℚ}
    (h : wNorm w l = some q) : (w l).isSome ∨ (w (-l)).isSome := by
  rw [wNorm] at h
  rcases hp : wFin w l with _ | a <;> rcases hn : wFin w (-l) with _ | b
  · rw [hp, hn] at h
    split at h <;> simp [normEntry] at h
  · right; exact wFin_some_w hn
  · left; exact wFin_some_w hp
  · left; exact wFin_some_w hp

lemma mem_litsOf_neg {n l : Int} (h : -l ∈ litsOf n) : l ∈ litsOf n := by
  rw [litsOf, List.mem_flatMap] at h ⊢
  obtain ⟨v, hv, hmem⟩ := h
  refine ⟨v, hv, ?_⟩
  have hm : -l = v ∨ -l = -v := by simpa using hmem
  rcases hm with h1 | h1
  · have hlv : l = -v := by omega
    simp [hlv]
  · have hlv : l = v := by omega
    simp [hlv]

lemma gcdFold_dvd : ∀ (l : List ℤ) (init : ℕ),
    (∀ v ∈ l, ((l.foldl (fun g v => Int.gcd v g) init : ℕ) : ℤ) ∣ v) ∧
    ((l.foldl (fun g v => Int.gcd v g) init) ∣ init) := by
  intro l
  induction l with
  | nil => intro init; exact ⟨by simp, dvd_refl _⟩
  | cons x xs ih =>
      intro init
      have hrec := ih (Int.gcd x init)
      constructor
      · intro v hv
        rcases List.mem_cons.mp hv with heq | hmem
        · subst heq
          have h1 : ((xs.foldl (fun g v => Int.gcd v g) (Int.gcd v init) : ℕ) : ℤ) ∣
              ((Int.gcd v init : ℕ) : ℤ) := Int.natCast_dvd_natCast.mpr hrec.2
          exact h1.trans (Int.gcd_dvd_left)
        · exact hrec.1 v hmem
      · have h2 : ((Int.gcd x init : ℕ) : ℤ) ∣ (init : ℤ) := Int.gcd_dvd_right
        have h2' : (Int.gcd x ↑init) ∣ init := Int.natCast_dvd_natCast.mp h2
        exact hrec.2.trans h2'

lemma scaleExp_cast (w : Int → Option (WithBot ℚ)) (n : Int) :
    ((scaleExp w n : ℕ) : ℤ) = 8 + maxExp w n := by
  rw [scaleExp, Int.toNat_of_nonneg]
  have := maxExp_nonneg w n
  omega

lemma postRun_mono (adj : Nat → List Nat) :
    ∀ (fuel : Nat) (stack : List (Nat × Nat × List Nat)) (out : List Nat),
      postRun adj fuel stack = some out → postRun adj (fuel + 1) stack = some out := by
  intro fuel
  induction fuel with
  | zero =>
      intro stack out h
      cases stack with
      | nil => simpa using h
      | cons fr rest => simp [postRun] at h
  | succ fuel ih =>
      intro stack out h
      cases stack with
      | nil => simpa using h
      | cons fr rest =>
          obtain ⟨p, c, ns⟩ := fr
          cases hd : dropP p ns with
          | nil =>
              have h1 : postRun adj (fuel + 1) ((p, c, ns) :: rest) =
                  Option.map (fun l => c :: l) (postRun adj fuel rest) := by
                simp only [postRun, hd]
              have h2 : postRun adj (fuel + 1 + 1) ((p, c, ns) :: rest) =
                  Option.map (fun l => c :: l) (postRun adj (fuel + 1) rest) := by
                simp only [postRun, hd]
              rw [h1] at h
              obtain ⟨v, hv, hout⟩ := Option.map_eq_some'.mp h
              rw [h2, ih rest v hv]
              simp [hout]
          | cons y tl =>
              have h1 : postRun adj (fuel + 1) ((p, c, ns) :: rest) =
                  postRun adj fuel ((c, y, adj y) :: (p, c, tl) :: rest) := by
                simp only [postRun, hd]
              have h2 : postRun adj (fuel + 1 + 1) ((p, c, ns) :: rest) =
                  postRun adj (fuel + 1) ((c, y, adj y) :: (p, c, tl) :: rest) := by
                simp only [postRun, hd]
              rw [h1] at h
              rw [h2]
              exact ih _ _ h

lemma runsP_nil (adj : Nat → List Nat) : RunsP adj [] [] := ⟨0, rfl⟩

lemma runsP_yield {adj : Nat → List Nat} {rest : List (Nat × Nat × List Nat)} {v : List Nat}
    {p c : Nat} {ns : List Nat} (hd : dropP p ns = []) (h : RunsP adj rest v) :
    RunsP adj ((p, c, ns) :: rest) (c :: v) := by
  obtain ⟨fuel, hf⟩ := h
  exact ⟨fuel + 1, by simp only [postRun, hd, hf]; rfl⟩

lemma runsP_push {adj : Nat → List Nat} {rest : List (Nat × Nat × List Nat)} {v : List Nat}
    {p c y : Nat} {ns tl : List Nat} (hd : dropP p ns = y :: tl)
    (h : RunsP adj ((c, y, adj y) :: (p, c, tl) :: rest) v) :
    RunsP adj ((p, c, ns) :: rest) v := by
  obtain ⟨fuel, hf⟩ := h
  exact ⟨fuel + 1, by simp only [postRun, hd, hf]⟩

lemma drops_nil_inv {p : Nat} {ns : List Nat} (h : Drops p ns []) : dropP p ns = [] := by
  cases h with
  | nil => rfl
  | lone => simp [dropP]

lemma drops_cons_inv {p y : Nat} {rs ns : List Nat} (h : Drops p ns (y :: rs)) :
    ∃ tl, dropP p ns = y :: tl ∧ Drops p tl rs := by
  cases h with
  | cons hy hD => exact ⟨_, by simp [dropP, hy], hD⟩
  | skip hD => exact ⟨_, by simp [dropP], hD⟩

lemma postorderF_node (i : Nat) (cs : List RTree) :
    postorderF (RTree.node i cs) = postorderL cs ++ [i] := by
  simp [postorderF]

lemma postorderL_cons (t : RTree) (ts : List RTree) :
    postorderL (t :: ts) = postorderF t ++ postorderL ts := by
  simp [postorderL]

lemma preorderF_node (i : Nat) (cs : List RTree) :
    preorderF (RTree.node i cs) = i :: preorderL cs := by
  simp [preorderF]

lemma preorderL_cons (t : RTree) (ts : List RTree) :
    preorderL (t :: ts) = preorderF t ++ preorderL ts := by
  simp [preorderL]

lemma preorderF_eq (t : RTree) : preorderF t = t.rootId :: (preorderF t).tail := by
  cases t with
  | node i cs => simp [preorderF_node, RTree.rootId]

lemma postorderL_decomp {s : RTree} {cs : List RTree} (hs : s ∈ cs) :
    ∃ A B, postorderL cs = A ++ postorderF s ++ B := by
  induction cs with
  | nil => cases hs
  | cons t ts ih =>
      rcases List.mem_cons.mp hs with rfl | hs2
      · exact ⟨[], postorderL ts, by simp [postorderL_cons]⟩
      · obtain ⟨A, B, hAB⟩ := ih hs2
        exact ⟨postorderF t ++ A, B, by simp [postorderL_cons, hAB]⟩

lemma preorderL_decomp {s : RTree} {cs : List RTree} (hs : s ∈ cs) :
    ∃ A B, preorderL cs = A ++ preorderF s ++ B := by
  induction cs with
  | nil => cases hs
  | cons t ts ih =>
      rcases List.mem_cons.mp hs with rfl | hs2
      · exact ⟨[], preorderL ts, by simp [preorderL_cons]⟩
      · obtain ⟨A, B, hAB⟩ := ih hs2
        exact ⟨preorderF t ++ A, B, by simp [preorderL_cons, hAB]⟩

lemma mem_postL_of_mem {s : RTree} {cs : List RTree} (hs : s ∈ cs) {x : Nat}
    (hx : x ∈ postorderF s) : x ∈ postorderL cs := by
  obtain ⟨A, B, h⟩ := postorderL_decomp hs
  rw [h]
  simp [hx]

lemma rootId_mem_post (t : RTree) : t.rootId ∈ postorderF t := by
  cases t with
  | node i cs => simp [postorderF_node, RTree.rootId]

lemma runsP_frame {adj : Nat → List Nat} {p i : Nat} :
    ∀ (cs : List RTree) (ns : List Nat), Drops p ns (cs.map RTree.rootId) →
    (∀ s ∈ cs, ∀ rest out, RunsP adj rest out →
        RunsP adj ((i, s.rootId, adj s.rootId) :: rest) (postorderF s ++ out)) →
    ∀ rest out, RunsP adj rest out →
      RunsP adj ((p, i, ns) :: rest) (postorderL cs ++ i :: out) := by
  intro cs
  induction cs with
  | nil =>
      intro ns hD _ rest out hout
      simpa [postorderL] using runsP_yield (drops_nil_inv hD) hout
  | cons s ss ih =>
      intro ns hD hsub rest out hout
      rw [List.map_cons] at hD
      obtain ⟨tl, hdp, hD2⟩ := drops_cons_inv hD
      apply runsP_push hdp
      have h2 : RunsP adj ((p, i, tl) :: rest) (postorderL ss ++ i :: out) :=
        ih tl hD2 (fun u hu => hsub u (List.mem_cons_of_mem _ hu)) rest out hout
      have h3 := hsub s (List.mem_cons_self _ _) ((p, i, tl) :: rest) _ h2
      simpa [postorderL_cons, List.append_assoc] using h3

lemma runsP_tree {adj : Nat → List Nat} :
    ∀ {p : Nat} {t : RTree}, Hangs adj p t →
    ∀ rest out, RunsP adj rest out →
      RunsP adj ((p, t.rootId, adj t.rootId) :: rest) (postorderF t ++ out) := by
  intro p t h
  induction h with
  | mk hD hcs ih =>
      intro rest out hout
      have h1 := runsP_frame _ _ hD ih rest out hout
      simpa [postorderF_node, RTree.rootId, List.append_assoc] using h1

lemma postIter_post {adj : Nat → List Nat} {t : RTree} (h : Hangs adj 0 t) :
    ∃ fuel, postIter adj t.rootId fuel = some (postorderF t) := by
  have h1 := runsP_tree h [] [] (runsP_nil adj)
  simpa [postIter, RunsP] using h1

lemma runsPre_nil (adj : Nat → List Nat) : RunsPre adj [] [] := ⟨0, rfl⟩

lemma runsPre_yield {adj : Nat → List Nat} {rest : List (Nat × Nat × List Nat)} {v : List Nat}
    {p c : Nat} {ns : List Nat} (hd : dropP p ns = []) (h : RunsPre adj rest v) :
    RunsPre adj ((p, c, ns) :: rest) v := by
  obtain ⟨fuel, hf⟩ := h
  exact ⟨fuel + 1, by simp only [preRun, hd, hf]⟩

lemma runsPre_push {adj : Nat → List Nat} {rest : List (Nat × Nat × List Nat)} {v : List Nat}
    {p c y : Nat} {ns tl : List Nat} (hd : dropP p ns = y :: tl)
    (h : RunsPre adj ((c, y, adj y) :: (p, c, tl) :: rest) v) :
    RunsPre adj ((p, c, ns) :: rest) (y :: v) := by
  obtain ⟨fuel, hf⟩ := h
  exact ⟨fuel + 1, by simp only [preRun, hd, hf]; rfl⟩

lemma runsPre_frame {adj : Nat → List Nat} {p i : Nat} :
    ∀ (cs : List RTree) (ns : List Nat), Drops p ns (cs.map RTree.rootId) →
    (∀ s ∈ cs, ∀ rest out, RunsPre adj rest out →
        RunsPre adj ((i, s.rootId, adj s.rootId) :: rest) ((preorderF s).tail ++ out)) →
    ∀ rest out, RunsPre adj rest out →
      RunsPre adj ((p, i, ns) :: rest) (preorderL cs ++ out) := by
  intro cs
  induction cs with
  | nil =>
      intro ns hD _ rest out hout
      simpa [preorderL] using runsPre_yield (drops_nil_inv hD) hout
  | cons s ss ih =>
      intro ns hD hsub rest out hout
      rw [List.map_cons] at hD
      obtain ⟨tl, hdp, hD2⟩ := drops_cons_inv hD
      have h2 : RunsPre adj ((p, i, tl) :: rest) (preorderL ss ++ out) :=
        ih tl hD2 (fun u hu => hsub u (List.mem_cons_of_mem _ hu)) rest out hout
      have h3 := hsub s (List.mem_cons_self _ _) ((p, i, tl) :: rest) _ h2
      have h4 := runsPre_push hdp h3
      have h5 : preorderL (s :: ss) ++ out =
          s.rootId :: ((preorderF s).tail ++ (preorderL ss ++ out)) := by
        rw [preorderL_cons, preorderF_eq s]
        simp
      rw [h5]
      exact h4

lemma runsPre_tree {adj : Nat → List Nat} :
    ∀ {p : Nat} {t : RTree}, Hangs adj p t →
    ∀ rest out, RunsPre adj rest out →
      RunsPre adj ((p, t.rootId, adj t.rootId) :: rest) ((preorderF t).tail ++ out) := by
  intro p t h
  induction h with
  | mk hD hcs ih =>
      intro rest out hout
      have h1 := runsPre_frame _ _ hD ih rest out hout
      simpa [preorderF_node, RTree.rootId] using h1

lemma preIter_pre {adj : Nat → List Nat} {t : RTree} (h : Hangs adj 0 t) :
    ∃ fuel, preIter adj t.rootId fuel = some (preorderF t) := by
  obtain ⟨fuel, hf⟩ := runsPre_tree h [] [] (runsPre_nil adj)
  refine ⟨fuel, ?_⟩
  rw [List.append_nil] at hf
  rw [preIter, hf]
  exact congrArg some (preorderF_eq t).symm

mutual

lemma post_perm_pre : ∀ (t : RTree), (postorderF t).Perm (preorderF t)
  | .node i cs => by
      rw [postorderF_node, preorderF_node]
      exact (List.perm_append_singleton i (postorderL cs)).trans
        ((postL_perm_preL cs).cons i)

lemma postL_perm_preL : ∀ (ts : List RTree), (postorderL ts).Perm (preorderL ts)
  | [] => List.Perm.refl []
  | t :: ts => by
      rw [postorderL_cons, preorderL_cons]
      exact (post_perm_pre t).append (postL_perm_preL ts)

end

lemma childin_before_post {t : RTree} {c p : Nat} (h : ChildIn t c p) :
    Before c p (postorderF t) := by
  induction h with
  | here hs =>
      rename_i i cs s
      obtain ⟨A, B, hAB⟩ := postorderL_decomp hs
      obtain ⟨j, csj⟩ := s
      refine ⟨A ++ postorderL csj, B, [], ?_⟩
      rw [postorderF_node, hAB, postorderF_node]
      simp [RTree.rootId]
  | deeper hs hC ihC =>
      rename_i i cs s c2 p2
      obtain ⟨A, B, hAB⟩ := postorderL_decomp hs
      obtain ⟨l1, l2, l3, hl⟩ := ihC
      refine ⟨A ++ l1, l2, l3 ++ B ++ [i], ?_⟩
      rw [postorderF_node, hAB, hl]
      simp

lemma childin_before_pre {t : RTree} {c p : Nat} (h : ChildIn t c p) :
    Before p c (preorderF t) := by
  induction h with
  | here hs =>
      rename_i i cs s
      obtain ⟨A, B, hAB⟩ := preorderL_decomp hs
      obtain ⟨j, csj⟩ := s
      refine ⟨[], A, preorderL csj ++ B, ?_⟩
      rw [preorderF_node, hAB, preorderF_node]
      simp [RTree.rootId]
  | deeper hs hC ihC =>
      rename_i i cs s c2 p2
      obtain ⟨A, B, hAB⟩ := preorderL_decomp hs
      obtain ⟨l1, l2, l3, hl⟩ := ihC
      refine ⟨i :: (A ++ l1), l2, l3 ++ B, ?_⟩
      rw [preorderF_node, hAB, hl]
      simp

lemma hangs_tW : Hangs adjW 0 tW := by
  refine Hangs.mk ?_ ?_
  · exact Drops.cons (by decide) (Drops.cons (by decide) Drops.nil)
  · intro s hs
    have h2 : Hangs adjW 1 (RTree.node 2 []) :=
      Hangs.mk (show Drops 1 [1] [] from Drops.lone) (by intro u hu; cases hu)
    have h3 : Hangs adjW 1 (RTree.node 3 []) :=
      Hangs.mk (show Drops 1 [1] [] from Drops.lone) (by intro u hu; cases hu)
    rcases List.mem_cons.mp hs with rfl | hs2
    · exact h2
    · rcases List.mem_cons.mp hs2 with rfl | hs3
      · exact h3
      · cases hs3

lemma postF_tW : postorderF tW = [2, 3, 1] := rfl

lemma hangs_tWc : Hangs tdW.adj 0 tWc := by
  refine Hangs.mk ?_ ?_
  · exact Drops.cons (by decide) Drops.nil
  · intro s hs
    rcases List.mem_cons.mp hs with rfl | hs2
    · exact Hangs.mk (show Drops 1 [1] [] from Drops.lone) (by intro u hu; cases hu)
    · cases hs2

lemma postF_tWc : postorderF tWc = [2, 1] := rfl

lemma exbind_okN {e a b : Type} (x : a) (f : a → Except e b) :
    ((Except.ok x : Except e a) >>= f) = f x := rfl

lemma exbind_errN {e a b : Type} (x : e) (f : a → Except e b) :
    ((Except.error x : Except e a) >>= f) = Except.error x := rfl

lemma runsC_push {adj : Nat → List Nat} {bag : Nat → Option (Finset Nat)} {half : Nat}
    {p c y : Nat} {ns tl : List Nat} {cnt : Nat}
    {rest : List (Nat × Nat × List Nat × Nat)} {r : CentOut}
    (hd : dropP p ns = y :: tl)
    (h : RunsC adj bag half ((c, y, adj y, 0) :: (p, c, tl, cnt) :: rest) r) :
    RunsC adj bag half ((p, c, ns, cnt) :: rest) r := by
  obtain ⟨fuel, hf⟩ := h
  exact ⟨fuel + 1, by simp only [centRun, hd, hf]⟩

lemma runsC_finish_found {adj : Nat → List Nat} {bag : Nat → Option (Finset Nat)} {half : Nat}
    {p c : Nat} {ns : List Nat} {cnt : Nat} {pp pc : Nat} {pn : List Nat} {pcnt : Nat}
    {rest2 : List (Nat × Nat × List Nat × Nat)} {pb cb : Finset Nat}
    (hd : dropP p ns = []) (hp : bag p = some pb) (hc : bag c = some cb)
    (htr : half < ((cb \ pb).card + cnt) + pcnt) :
    RunsC adj bag half ((p, c, ns, cnt) :: (pp, pc, pn, pcnt) :: rest2) (CentOut.found pc) :=
  ⟨1, by simp [centRun, hd, hp, hc, htr]⟩

lemma runsC_finish_fold {adj : Nat → List Nat} {bag : Nat → Option (Finset Nat)} {half : Nat}
    {p c : Nat} {ns : List Nat} {cnt : Nat} {pp pc : Nat} {pn : List Nat} {pcnt : Nat}
    {rest2 : List (Nat × Nat × List Nat × Nat)} {pb cb : Finset Nat} {r : CentOut}
    (hd : dropP p ns = []) (hp : bag p = some pb) (hc : bag c = some cb)
    (htr : ¬ half < ((cb \ pb).card + cnt) + pcnt)
    (h : RunsC adj bag half ((pp, pc, pn, pcnt + ((cb \ pb).card + cnt)) :: rest2) r) :
    RunsC adj bag half ((p, c, ns, cnt) :: (pp, pc, pn, pcnt) :: rest2) r := by
  obtain ⟨fuel, hf⟩ := h
  exact ⟨fuel + 1, by simp [centRun, hd, hp, hc, htr, hf]⟩

lemma runsC_finish_noparent {adj : Nat → List Nat} {bag : Nat → Option (Finset Nat)}
    {half : Nat} {p c : Nat} {ns : List Nat} {cnt : Nat}
    {rest : List (Nat × Nat × List Nat × Nat)} {cb : Finset Nat}
    (hd : dropP p ns = []) (hp : bag p = none) (hc : bag c = some cb) :
    RunsC adj bag half ((p, c, ns, cnt) :: rest) CentOut.err :=
  ⟨1, by simp [centRun, hd, hp, hc]⟩

lemma runsC_frame (adj : Nat → List Nat) (bag : Nat → Option (Finset Nat))
    (bagF : Nat → Finset Nat) (half : Nat) (p i : Nat)
    (hi : bag i = some (bagF i)) :
    ∀ (cs : List RTree), (∀ s ∈ cs, TreeStepC adj bag bagF half i s) →
    ∀ (ns : List Nat), Drops p ns (cs.map RTree.rootId) →
    ∀ (cnt : Nat) (pb : Finset Nat), bag p = some pb →
    ∀ (pp pc : Nat) (pn : List Nat) (pcnt : Nat)
      (rest2 : List (Nat × Nat × List Nat × Nat)) (r : CentOut),
    (∀ acc, centSearchL bagF half (bagF i) i cs cnt = Except.ok acc →
       (if half < ((bagF i \ pb).card + acc) + pcnt then r = CentOut.found pc
        else RunsC adj bag half
          ((pp, pc, pn, pcnt + ((bagF i \ pb).card + acc)) :: rest2) r)) →
    (∀ b, centSearchL bagF half (bagF i) i cs cnt = Except.error b → r = CentOut.found b) →
    RunsC adj bag half ((p, i, ns, cnt) :: (pp, pc, pn, pcnt) :: rest2) r := by
  intro cs
  induction cs with
  | nil =>
      intro _ ns hD cnt pb hp pp pc pn pcnt rest2 r hok herr
      have hd := drops_nil_inv hD
      have h1 := hok cnt rfl
      by_cases hc : half < ((bagF i \ pb).card + cnt) + pcnt
      · rw [if_pos hc] at h1
        rw [h1]
        exact runsC_finish_found hd hp hi hc
      · rw [if_neg hc] at h1
        exact runsC_finish_fold hd hp hi hc h1
  | cons u ss ih =>
      intro hstep ns hD cnt pb hp pp pc pn pcnt rest2 r hok herr
      rw [List.map_cons] at hD
      obtain ⟨tl, hdp, hD2⟩ := drops_cons_inv hD
      apply runsC_push hdp
      apply hstep u (List.mem_cons_self _ _) (bagF i) hi p i tl cnt
        ((pp, pc, pn, pcnt) :: rest2) r
      · intro w hw
        by_cases hcw : half < w + cnt
        · rw [if_pos hcw]
          apply herr i
          simp only [centSearchL, hw, exbind_okN]
          rw [if_pos hcw]
        · rw [if_neg hcw]
          apply ih (fun v hv => hstep v (List.mem_cons_of_mem _ hv)) tl hD2 (cnt + w)
            pb hp pp pc pn pcnt rest2 r
          · intro acc ha
            apply hok acc
            simp only [centSearchL, hw, exbind_okN]
            rw [if_neg hcw]
            exact ha
          · intro b hbb
            apply herr b
            simp only [centSearchL, hw, exbind_okN]
            rw [if_neg hcw]
            exact hbb
      · intro b hbb
        apply herr b
        simp only [centSearchL, hbb, exbind_errN]

lemma runsC_tree (adj : Nat → List Nat) (bag : Nat → Option (Finset Nat))
    (bagF : Nat → Finset Nat) (half : Nat) :
    ∀ {p : Nat} {t : RTree}, Hangs adj p t →
    (∀ x ∈ postorderF t, bag x = some (bagF x)) →
    TreeStepC adj bag bagF half p t := by
  intro p t h
  induction h with
  | mk hD hcs ih =>
      rename_i p2 i cs
      intro hbag
      have hi : bag i = some (bagF i) := hbag i (by simp [postorderF_node])
      intro pb hp pp pc pn pcnt rest2 r hok herr
      apply runsC_frame adj bag bagF half p2 i hi cs
        (fun s hs => ih s hs (fun x hx => hbag x
          (by rw [postorderF_node]; exact List.mem_append_left _ (mem_postL_of_mem hs hx))))
        (adj i) hD 0 pb hp pp pc pn pcnt rest2 r
      · intro acc ha
        exact hok ((bagF i \ pb).card + acc) (by simp only [centSearch, ha, exbind_okN])
      · intro b hbb
        exact herr b (by simp only [centSearch, hbb, exbind_errN])

lemma runsC_root (adj : Nat → List Nat) (bag : Nat → Option (Finset Nat))
    (bagF : Nat → Finset Nat) (half : Nat) (r0 : Nat)
    (h0 : bag 0 = none) (hi : bag r0 = some (bagF r0)) :
    ∀ (cs : List RTree), (∀ s ∈ cs, TreeStepC adj bag bagF half r0 s) →
    ∀ (ns : List Nat), Drops 0 ns (cs.map RTree.rootId) →
    ∀ (cnt : Nat) (r : CentOut),
    (∀ acc, centSearchL bagF half (bagF r0) r0 cs cnt = Except.ok acc → r = CentOut.err) →
    (∀ b, centSearchL bagF half (bagF r0) r0 cs cnt = Except.error b → r = CentOut.found b) →
    RunsC adj bag half [(0, r0, ns, cnt)] r := by
  intro cs
  induction cs with
  | nil =>
      intro _ ns hD cnt r hok herr
      have hd := drops_nil_inv hD
      rw [hok cnt rfl]
      exact runsC_finish_noparent hd h0 hi
  | cons u ss ih =>
      intro hstep ns hD cnt r hok herr
      rw [List.map_cons] at hD
      obtain ⟨tl, hdp, hD2⟩ := drops_cons_inv hD
      apply runsC_push hdp
      apply hstep u (List.mem_cons_self _ _) (bagF r0) hi 0 r0 tl cnt [] r
      · intro w hw
        by_cases hcw : half < w + cnt
        · rw [if_pos hcw]
          apply herr r0
          simp only [centSearchL, hw, exbind_okN]
          rw [if_pos hcw]
        · rw [if_neg hcw]
          apply ih (fun v hv => hstep v (List.mem_cons_of_mem _ hv)) tl hD2 (cnt + w) r
          · intro acc ha
            apply hok acc
            simp only [centSearchL, hw, exbind_okN]
            rw [if_neg hcw]
            exact ha
          · intro b hbb
            apply herr b
            simp only [centSearchL, hw, exbind_okN]
            rw [if_neg hcw]
            exact hbb
      · intro b hbb
        apply herr b
        simp only [centSearchL, hbb, exbind_errN]

/-! Claim theorems. -/

/-- C2: on a CNF whose clause set is empty after trivial-clause removal,
evaluate_trivial returns, with one declared semiring, the vector holding at
every query position the product over the variables 1..nr_vars of
weight(v) + weight(-v) in that semiring, and with no declared semirings the
model count 2 to the nr_vars. -/
theorem evaluate_trivial_empty_clauses {V : Type} (reg : SRReg V) (tf : V → V)
    (sat : Bool) (c : CNFData V)
    (hcls : removeTrivial c.clauses = [])
    (hnneg : 0 ≤ c.nr_vars) :
    (∀ (s : String) (q : Nat),
      c.semirings = [s] →
      c.weights.length = 2 * c.nr_vars.toNat →
      (∀ i, i < 2 * c.nr_vars.toNat →
        ∃ ws : List V, lookupW c.weights (to_dimacs i) = some ws ∧ ws.length = q) →
      (c.nr_vars = 0 → q = 1) →
      evaluateTrivial reg tf sat c = .ok (some (.vals (specProdVec (reg s) c q))) ∧
      (specProdVec (reg s) c q).length = q ∧
      (∀ (d : V) (j : Nat), j < q → (specProdVec (reg s) c q).get? j =
        some ((range1 c.nr_vars).foldl
          (fun a v => (reg s).mul a
            ((reg s).add (((wOf c v).get? j).getD d) (((wOf c (-v)).get? j).getD d)))
          (reg s).one))) ∧
    (c.semirings = [] →
      evaluateTrivial reg tf sat c = .ok (some (.counts [2 ^ c.nr_vars.toNat]))) := by
  constructor
  · intro s q hs hlen hkey hq1
    -- the pair list underlying the spec product
    have hpairs : specProdVec (reg s) c q =
        ((range1 c.nr_vars).map (fun v => (wOf c v, wOf c (-v)))).foldl
          (fun r p => r.zipWith (reg s).mul (p.1.zipWith (reg s).add p.2))
          (List.replicate q (reg s).one) := by
      rw [specProdVec, List.foldl_map]
    have hmemlen : ∀ p ∈ (range1 c.nr_vars).map (fun v => (wOf c v, wOf c (-v))),
        p.1.length = q ∧ p.2.length = q := by
      intro p hp
      obtain ⟨v, hv, rfl⟩ := List.mem_map.mp hp
      obtain ⟨i, hi', hveq⟩ := mem_range1 hv
      subst hveq
      obtain ⟨wsp, hwsp, hlp⟩ := hkey (2 * i) (by omega)
      obtain ⟨wsn, hwsn, hln⟩ := hkey (2 * i + 1) (by omega)
      constructor
      · show (wOf c ((i : Int) + 1)).length = q
        rw [wOf, ← to_dimacs_even i, hwsp]
        simpa using hlp
      · show (wOf c (-((i : Int) + 1))).length = q
        rw [wOf, ← to_dimacs_odd i, hwsn]
        simpa using hln
    have hzip := foldl_zip_get (reg s).mul (reg s).add (reg s).one q
      ((range1 c.nr_vars).map (fun v => (wOf c v, wOf c (-v))))
      (List.replicate q (reg s).one) (by simp) hmemlen
    have hlen_spec : (specProdVec (reg s) c q).length = q := by
      rw [hpairs]; exact hzip.1
    have hpoint : ∀ (d : V) (j : Nat), j < q → (specProdVec (reg s) c q).get? j =
        some ((range1 c.nr_vars).foldl
          (fun a v => (reg s).mul a
            ((reg s).add (((wOf c v).get? j).getD d) (((wOf c (-v)).get? j).getD d)))
          (reg s).one) := by
      intro d j hj
      have hzd := foldl_zip_get (reg s).mul (reg s).add d q
        ((range1 c.nr_vars).map (fun v => (wOf c v, wOf c (-v))))
        (List.replicate q (reg s).one) (by simp) hmemlen
      rw [hpairs, hzd.2 j hj, List.foldl_map]
      have hone : (((List.replicate q (reg s).one).get? j).getD d) = (reg s).one := by
        rw [List.get?_eq_getElem?, List.getElem?_replicate, if_pos hj]
        rfl
      rw [hone]
    refine ⟨?_, hlen_spec, hpoint⟩
    by_cases hn0 : c.nr_vars = 0
    · have hq : q = 1 := hq1 hn0
      simp only [evaluateTrivial, hs, hcls, List.isEmpty_nil, if_true, if_pos hn0]
      have : specProdVec (reg s) c q = [(reg s).one] := by
        rw [specProdVec, hn0, hq]
        rfl
      rw [this]
    · have hm1 : 1 ≤ c.nr_vars.toNat := by omega
      have hkeyS : ∀ i, i < c.weights.length → (lookupW c.weights (to_dimacs i)).isSome := by
        intro i hi
        obtain ⟨ws, hws, _⟩ := hkey i (by omega)
        rw [hws]; rfl
      have hflat := getWeightsList_ok c hkeyS
      have hg0 : ∀ i, i < c.weights.length →
          (((List.range c.weights.length).map
            (fun i => (lookupW c.weights (to_dimacs i)).getD [])).getD i ([] : List V)) =
            (lookupW c.weights (to_dimacs i)).getD [] :=
        fun i hi => getD_map_range _ _ i hi
      have hhead : ((List.range c.weights.length).map
          (fun i => (lookupW c.weights (to_dimacs i)).getD [])).head? =
          some ((lookupW c.weights (to_dimacs 0)).getD []) := by
        rw [List.head?_eq_getElem?, List.getElem?_map, List.getElem?_range (by omega)]
        rfl
      obtain ⟨ws0, hws0, hlen0⟩ := hkey 0 (by omega)
      have hw0len : ((lookupW c.weights (to_dimacs 0)).getD ([] : List V)).length = q := by
        rw [hws0]; simpa using hlen0
      simp only [evaluateTrivial, hs, hcls, List.isEmpty_nil, if_true, if_neg hn0]
      rw [hflat]
      simp only [exbind_ok, headE, hhead]
      congr 1
      congr 1
      congr 1
      rw [hw0len]
      simp only [specProdVec, range1, List.foldl_map, hlen]
      apply List.foldl_ext
      intro acc i hi
      have him : i < c.nr_vars.toNat := List.mem_range.mp hi
      have h1 : (((List.range (2 * c.nr_vars.toNat)).map
          (fun i => (lookupW c.weights (to_dimacs i)).getD [])).getD (2 * i) ([] : List V)) =
          wOf c ((i : Int) + 1) := by
        rw [getD_map_range _ _ _ (by omega), to_dimacs_even]
        rfl
      have h2 : (((List.range (2 * c.nr_vars.toNat)).map
          (fun i => (lookupW c.weights (to_dimacs i)).getD [])).getD (2 * i + 1) ([] : List V)) =
          wOf c (-((i : Int) + 1)) := by
        rw [getD_map_range _ _ _ (by omega), to_dimacs_odd]
        rfl
      rw [h1, h2]
  · intro hz
    by_cases hn0 : c.nr_vars = 0
    · simp only [evaluateTrivial, hz, hcls, List.isEmpty_nil, if_true, if_pos hn0, hn0]
      rfl
    · simp only [evaluateTrivial, hz, hcls, List.isEmpty_nil, if_true, if_neg hn0]
      rw [fold_double c.nr_vars.toNat 1, one_mul]

/-- Witness for C2: the trivial evaluation on a concrete one-variable
single-semiring CNF and on a concrete two-variable CNF without semirings
whose only clause is trivial. -/
theorem evaluate_trivial_empty_clauses_witness :
    evaluateTrivial reg0 id true cnf2a =
      .ok (some (.vals (specProdVec (reg0 "s1") cnf2a 1))) ∧
    evaluateTrivial reg0 id true cnf2b = .ok (some (.counts [4])) := by
  constructor
  · exact ((evaluate_trivial_empty_clauses reg0 id true cnf2a rfl (by decide)).1
      "s1" 1 rfl (by decide)
      (by
        intro i hi
        have hi2 : i < 2 := by simpa [cnf2a] using hi
        interval_cases i
        · exact ⟨["a"], rfl, rfl⟩
        · exact ⟨["b"], rfl, rfl⟩)
      (fun _ => rfl)).1
  · exact (evaluate_trivial_empty_clauses reg0 id true cnf2b rfl (by decide)).2 rfl

/-- C6: in the weight-to-MaxSAT reduction, after the conversion to a
common additive scale and the per-variable normalization, the surviving
weights are all nonnegative; every positive one is multiplied by the
power-of-ten scale 10^(8 + max_exp), where max_exp is the clamped ceiling
of minus log10 over the surviving weights (attained at the smallest one),
and floored to an integer that keeps at least 8 significant digits (the
floor is at least 10^8, so no positive weight is dropped); the scaled
weights are divided by their collective gcd; the hard-clause weight top is
the sum of the divided soft weights plus 2; and the reduction fails fatally
exactly when top reaches 2^63. -/
theorem write_maxsat_quantization (n : Int) (clauses : List (List Int))
    (w : Int → Option (WithBot ℚ))
    (hsupp : ∀ l : Int, (w l).isSome → l ∈ litsOf n) :
    (writeMaxsatCNF n clauses w = .error .overflow ↔ 2 ^ 63 ≤ topVal w n) ∧
    (∀ out, writeMaxsatCNF n clauses w = .ok out → out.top = topVal w n) ∧
    topVal w n = ((litsOf n).filterMap (wDiv w n)).foldl (· + ·) 0 + 2 ∧
    (∀ l q, wNorm w l = some q → 0 ≤ q) ∧
    (∀ l q, wNorm w l = some q → 0 < q →
      wScaled w n l = some ⌊q * 10 ^ scaleExp w n⌋ ∧
      (10 : ℤ) ^ 8 ≤ ⌊q * 10 ^ scaleExp w n⌋) ∧
    (∀ l sv, wScaled w n l = some sv → ((gcdAll w n : ℤ) ∣ sv) ∧
      wDiv w n l = some (Int.fdiv sv (gcdAll w n))) := by
  refine ⟨?_, ?_, rfl, fun l q hq => wNorm_nonneg hq, ?_, ?_⟩
  · constructor
    · intro herr
      by_contra hlt
      rw [writeMaxsatCNF] at herr
      rw [if_neg (by omega)] at herr
      exact absurd herr (by simp)
    · intro hge
      rw [writeMaxsatCNF, if_pos (by omega)]
  · intro out hout
    rw [writeMaxsatCNF] at hout
    by_cases hth : topVal w n ≥ 2 ^ 63
    · rw [if_pos hth] at hout
      exact absurd hout (by simp)
    · rw [if_neg hth] at hout
      have hinj := Except.ok.inj hout
      rw [← hinj]
  · intro l q hq hqpos
    have hmem : l ∈ litsOf n := by
      rcases wNorm_some_w hq with hl | hnl
      · exact hsupp l hl
      · exact mem_litsOf_neg (hsupp _ hnl)
    have hqin : q ∈ (litsOf n).filterMap (wNorm w) :=
      List.mem_filterMap.mpr ⟨l, hmem, hq⟩
    have hlogin : (-(Int.log 10 q)) ∈ ((litsOf n).filterMap (wNorm w)).filterMap
        (fun q => if 0 < q then some (-(Int.log 10 q)) else none) :=
      List.mem_filterMap.mpr ⟨q, hqin, by rw [if_pos hqpos]⟩
    have hle : -(Int.log 10 q) ≤ maxExp w n := foldl_max_le_of_mem hlogin 0
    have hq1 : (10 : ℚ) ^ (Int.log 10 q) ≤ q := Int.zpow_log_le_self (by norm_num) hqpos
    have hq3 : (10 : ℚ) ^ (-(maxExp w n)) ≤ q :=
      le_trans (zpow_le_zpow_right₀ (by norm_num) (by omega)) hq1
    have hcast : ((10 : ℚ) ^ (scaleExp w n : ℕ)) = (10 : ℚ) ^ ((8 + maxExp w n : ℤ)) := by
      rw [← zpow_natCast, scaleExp_cast]
    have hmul : (10 : ℚ) ^ (-(maxExp w n)) * (10 : ℚ) ^ ((8 + maxExp w n : ℤ)) =
        (10 : ℚ) ^ ((8 : ℕ) : ℤ) := by
      rw [← zpow_add₀ (by norm_num : (10 : ℚ) ≠ 0)]
      congr 1
      omega
    have hscale : ((10 : ℚ) ^ (8 : ℕ)) ≤ q * 10 ^ scaleExp w n := by
      rw [show ((10 : ℚ) ^ (8 : ℕ)) = (10 : ℚ) ^ ((8 : ℕ) : ℤ) from (zpow_natCast _ _).symm,
        ← hmul, hcast]
      apply mul_le_mul_of_nonneg_right hq3
      positivity
    have hsurv : ((1 : ℚ)/10) ^ scaleExp w n ≤ |q| := by
      rw [abs_of_pos hqpos, one_div, inv_pow, ← zpow_natCast, ← zpow_neg, scaleExp_cast]
      refine le_trans (zpow_le_zpow_right₀ (by norm_num) ?_) hq3
      omega
    have hfl : (10 : ℤ) ^ 8 ≤ ⌊q * 10 ^ scaleExp w n⌋ := by
      rw [Int.le_floor]
      push_cast
      exact hscale
    refine ⟨?_, hfl⟩
    rw [wScaled, hq, Option.some_bind, if_pos hsurv]
  · intro l sv hsv
    have hnorm : ∃ q, wNorm w l = some q := by
      rw [wScaled] at hsv
      rcases hn : wNorm w l with _ | q
      · rw [hn] at hsv
        exact absurd hsv (by simp)
      · exact ⟨q, rfl⟩
    obtain ⟨q, hqn⟩ := hnorm
    have hmem : l ∈ litsOf n := by
      rcases wNorm_some_w hqn with hl | hnl
      · exact hsupp l hl
      · exact mem_litsOf_neg (hsupp _ hnl)
    have hv : sv ∈ (litsOf n).filterMap (wScaled w n) :=
      List.mem_filterMap.mpr ⟨l, hmem, hsv⟩
    refine ⟨(gcdFold_dvd ((litsOf n).filterMap (wScaled w n)) 0).1 sv hv, ?_⟩
    rw [wDiv, hsv]
    rfl

/-- Witness for C6: the quantization facts evaluated on a concrete
one-variable weight map with weights 1/2 and 1/4. -/
theorem write_maxsat_quantization_witness :
    wScaled w6 1 1 = some ⌊(1 / 4 : ℚ) * 10 ^ scaleExp w6 1⌋ ∧
    (10 : ℤ) ^ 8 ≤ ⌊(1 / 4 : ℚ) * 10 ^ scaleExp w6 1⌋ ∧
    (writeMaxsatCNF 1 [[1]] w6 = .error .overflow ↔ 2 ^ 63 ≤ topVal w6 1) := by
  have hsupp : ∀ l : Int, (w6 l).isSome → l ∈ litsOf 1 := by
    intro l hl
    by_cases h1 : l = 1
    · subst h1; decide
    · by_cases h2 : l = -1
      · subst h2; decide
      · rw [w6, if_neg h1, if_neg h2] at hl
        exact absurd hl (by simp)
  have h := write_maxsat_quantization 1 [[1]] w6 hsupp
  have hnorm : wNorm w6 1 = some (1 / 4 : ℚ) := by
    have h1 : wFin w6 1 = some (1 / 2 : ℚ) := by simp [wFin, wIrr, w6]
    have h2 : wFin w6 (-1) = some (1 / 4 : ℚ) := by simp [wFin, wIrr, w6]
    rw [wNorm, if_pos (by norm_num : (0 : ℤ) < 1), h1, h2]
    simp only [normEntry]
    rw [if_neg (by norm_num : ¬ (1 / 2 : ℚ) < 1 / 4)]
    norm_num
  exact ⟨(h.2.2.2.2.1 1 (1 / 4) hnorm (by norm_num)).1,
    (h.2.2.2.2.1 1 (1 / 4) hnorm (by norm_num)).2, h.1⟩

/-- C1: for every valid WeightedCNF, parsing the text produced by
serializing it with extras enabled yields a CNF with identical clauses,
nr_vars, semirings, quantify levels and transform, and with every weight
value reproduced up to the parse and format round trip of its semiring. -/
theorem parse_serialize_roundtrip {V : Type} (reg : SRReg V) (c : CNFData V)
    (h : ValidCNF c) :
    (serializeCNF reg c).bind (parseCNF reg) =
      .ok { c with weights := c.weights.map (fun p => (p.1, reWeight reg c p.1 p.2)) } := by
  have hA : ([[Token.word "p", Token.word "cnf", Token.num c.nr_vars,
      Token.num c.clauses.length]] : List (List Token)).foldlM parseLine RawCNF.init =
      .ok ⟨[], c.nr_vars, [], [], [], none⟩ := rfl
  have hB : (c.clauses.map (fun cl => cl.map Token.num ++ [Token.num 0])).foldlM parseLine
      (⟨[], c.nr_vars, [], [], [], none⟩ : RawCNF) =
      .ok ⟨c.clauses, c.nr_vars, [], [], [], none⟩ :=
    foldlM_clauses c.clauses _
  have hC : (c.weights.map (fun p =>
      [Token.word "c", Token.word "p", Token.word "weight", Token.num p.1,
       Token.vals (p.2.map (reg (srNameD c p.1)).to_string), Token.num 0])).foldlM parseLine
      (⟨c.clauses, c.nr_vars, [], [], [], none⟩ : RawCNF) =
      .ok ⟨c.clauses, c.nr_vars,
        c.weights.map (fun p => (p.1, [Token.vals (p.2.map (reg (srNameD c p.1)).to_string)])),
        [], [], none⟩ :=
    foldlM_weights reg c c.weights _ h.keys_nodup (by intro p hp q hq; simp at hq)
  have hD : ((if c.semirings.length > 0 then
      [[Token.word "c", Token.word "p", Token.word "semirings"] ++ c.semirings.map Token.word
        ++ [Token.num 0]]
      else ([] : List (List Token)))).foldlM parseLine
      (⟨c.clauses, c.nr_vars,
        c.weights.map (fun p => (p.1, [Token.vals (p.2.map (reg (srNameD c p.1)).to_string)])),
        [], [], none⟩ : RawCNF) =
      .ok ⟨c.clauses, c.nr_vars,
        c.weights.map (fun p => (p.1, [Token.vals (p.2.map (reg (srNameD c p.1)).to_string)])),
        c.semirings, [], none⟩ :=
    foldlM_semirings_seg _ c.semirings rfl
  have hE : ((match c.transform with
      | some ts => [[Token.word "c", Token.word "p", Token.word "transform"] ++ ts
          ++ [Token.num 0]]
      | none => ([] : List (List Token)))).foldlM parseLine
      (⟨c.clauses, c.nr_vars,
        c.weights.map (fun (p : Int × List V) =>
          (p.1, [Token.vals (p.2.map (reg (srNameD c p.1)).to_string)])),
        c.semirings, [], none⟩ : RawCNF) =
      .ok ⟨c.clauses, c.nr_vars,
        c.weights.map (fun (p : Int × List V) =>
          (p.1, [Token.vals (p.2.map (reg (srNameD c p.1)).to_string)])),
        c.semirings, [], c.transform⟩ :=
    foldlM_transform_seg _ c.transform rfl
  have hF : (c.quantified.map (fun l =>
      [Token.word "c", Token.word "p", Token.word "quantify"] ++ l.map Token.num
        ++ [Token.num 0])).foldlM parseLine
      (⟨c.clauses, c.nr_vars,
        c.weights.map (fun p => (p.1, [Token.vals (p.2.map (reg (srNameD c p.1)).to_string)])),
        c.semirings, [], c.transform⟩ : RawCNF) =
      .ok ⟨c.clauses, c.nr_vars,
        c.weights.map (fun p => (p.1, [Token.vals (p.2.map (reg (srNameD c p.1)).to_string)])),
        c.semirings, c.quantified, c.transform⟩ :=
    foldlM_quantify c.quantified _
  have hfold := foldlM_chain _ _ _ _ _
    (foldlM_chain _ _ _ _ _
      (foldlM_chain _ _ _ _ _
        (foldlM_chain _ _ _ _ _
          (foldlM_chain _ _ _ _ _ hA hB) hC) hD) hE) hF
  rw [serializeCNF_ok reg c h.sr_ok]
  show parseCNF reg _ = _
  rw [parseCNF, hfold]
  simp only [exbind_ok]
  exact finishParse_final reg c h

/-- Witness for C1: the round trip evaluated on a concrete valid
single-semiring CNF. -/
theorem parse_serialize_roundtrip_witness :
    ValidCNF cnf1w ∧
    (serializeCNF reg0 cnf1w).bind (parseCNF reg0) =
      .ok { cnf1w with
        weights := cnf1w.weights.map (fun p => (p.1, reWeight reg0 cnf1w p.1 p.2)) } := by
  have hv : ValidCNF cnf1w := by
    refine ⟨by decide, by decide, by decide, by decide, ?_⟩
    intro p hp
    refine ⟨"s1", ?_⟩
    have hcase : p = ((1 : Int), ["a", "b"]) ∨ p = ((-1 : Int), ["c", "d"]) := by
      simpa [cnf1w] using hp
    rcases hcase with rfl | rfl <;> rfl
  exact ⟨hv, parse_serialize_roundtrip reg0 cnf1w hv⟩

/-- C3: on an unsatisfiable CNF with two declared semirings, the
evaluate_trivial zero-return branch evaluates np.shape of self.weights at
key 0, a lookup of the never-weighted literal 0, and so raises KeyError
instead of returning the vector of outer-semiring zeros that its
documentation promises for trivial instances (the parallel one-semiring
branch correctly uses the flat list of get_weights). -/
theorem evaluate_trivial_two_semiring_unsat_keyerror :
    evaluateTrivial reg0 id false cnf3 = .error .keyError := rfl

/-- C4 (counterexample): with the flexible strategy and one idempotent
semiring, evaluate goes straight to the MaxSAT backend and never attempts
evaluate_trivial, even on an input where the shortcut applies (no clauses,
no variables). -/
theorem evaluate_flexible_idempotent_skips_trivial :
    evaluateTrace reg0 id true "c2d" cnf4 "flexible" false = .ok [EvalStep.maxsat] ∧
    evaluateTrivial reg0 id true cnf4 = .ok (some (TrivRes.vals ["one"])) ∧
    EvalStep.trivialCheck ∉ [EvalStep.maxsat] :=
  ⟨rfl, rfl, by decide⟩

/-- C4 (amended): evaluate attempts the evaluate_trivial shortcut only on
the compilation path: the compilation strategy, and the flexible fallback,
run solve_compilation, which tries the shortcut first and returns
immediately on a hit; the flexible MaxSAT path (single idempotent semiring)
and the flexible direct weighted-model-counting path invoke their backends
without attempting the shortcut. -/
theorem evaluate_trivial_check_only_on_compilation_path {V : Type} (reg : SRReg V)
    (tf : V → V) (sat : Bool) (kc : String) (c : CNFData V) (preproc : Bool) :
    (evaluateTrace reg tf sat kc c "compilation" preproc =
      solveCompilationTrace reg tf sat preproc c) ∧
    (∀ r, evaluateTrivial reg tf sat c = .ok (some r) →
      solveCompilationTrace reg tf sat preproc c =
        .ok ((if preproc then [EvalStep.preprocess] else []) ++ [EvalStep.trivialCheck])) ∧
    (c.semirings.length = 1 ∧ (reg (c.semirings.getD 0 "")).is_idempotent = true →
      evaluateTrace reg tf sat kc c "flexible" preproc = .ok [EvalStep.maxsat]) ∧
    (¬(c.semirings.length = 1 ∧ (reg (c.semirings.getD 0 "")).is_idempotent = true) →
      (c.semirings.length = 1 ∧ kc = "sharpsat-td" ∧
        c.semirings.getD 0 "" = "aspmc.semirings.probabilistic") →
      evaluateTrace reg tf sat kc c "flexible" preproc = .ok [EvalStep.wmc]) ∧
    (¬(c.semirings.length = 1 ∧ (reg (c.semirings.getD 0 "")).is_idempotent = true) →
      ¬(c.semirings.length = 1 ∧ kc = "sharpsat-td" ∧
        c.semirings.getD 0 "" = "aspmc.semirings.probabilistic") →
      evaluateTrace reg tf sat kc c "flexible" preproc =
        solveCompilationTrace reg tf sat preproc c) := by
  refine ⟨?_, ?_, ?_, ?_, ?_⟩
  · rw [evaluateTrace, if_neg (by decide), if_pos rfl]
  · intro r hr
    rw [solveCompilationTrace, hr]
    rfl
  · intro hcond
    rw [evaluateTrace, if_pos rfl, if_pos hcond]
  · intro h1 h2
    rw [evaluateTrace, if_pos rfl, if_neg h1, if_pos h2]
  · intro h1 h2
    rw [evaluateTrace, if_pos rfl, if_neg h1, if_neg h2]

/-- Witness for the amended C4: on the concrete idempotent one-semiring
input the flexible trace is the bare MaxSAT call, while the compilation
path stops at the trivial check. -/
theorem evaluate_trivial_check_only_on_compilation_path_witness :
    evaluateTrace reg0 id true "c2d" cnf4 "flexible" false = .ok [EvalStep.maxsat] ∧
    solveCompilationTrace reg0 id true false cnf4 = .ok [EvalStep.trivialCheck] := by
  refine ⟨?_, ?_⟩
  · exact (evaluate_trivial_check_only_on_compilation_path reg0 id true "c2d" cnf4
      false).2.2.1 (by decide)
  · exact (evaluate_trivial_check_only_on_compilation_path reg0 id true "c2d" cnf4
      false).2.1 (TrivRes.vals ["one"]) rfl

/-- C5 (counterexample): a semirings property line that is not terminated
by the 0 sentinel does not abort parsing: the parse returns a CNF (here
with the module name swallowed as the dropped final token, and the missing
sentinel merely logged). -/
theorem parse_unterminated_property_returns_cnf :
    parseCNF reg0 lines5 = .ok ⟨[], 1, [], [], [], none⟩ := rfl

/-- C5 (amended): parsing aborts with a format error on a semiring and
quantify count mismatch, on more than two semirings, and on two semirings
without a transform; a property line not terminated by the 0 sentinel is
however only logged: its last token is dropped exactly as the sentinel
would be, parsing continues, and the result is the same as for the
sentinel-terminated line. -/
theorem parse_fatal_checks_and_sentinel {V : Type} (reg : SRReg V) :
    (∀ (lines : List (List Token)) (raw : RawCNF),
      lines.foldlM parseLine RawCNF.init = .ok raw →
        (raw.quantified.length ≠ raw.semirings.length →
          parseCNF reg lines = .error .formatMismatch) ∧
        (raw.quantified.length = raw.semirings.length → 2 < raw.semirings.length →
          parseCNF reg lines = .error .formatTooManySemirings) ∧
        (raw.quantified.length = raw.semirings.length → raw.semirings.length = 2 →
          raw.transform = none → parseCNF reg lines = .error .formatMissingTransform)) ∧
    (∀ (st : RawCNF) (t : Token),
      (∀ vs : List Int,
        parseLine st (Token.word "c" :: Token.word "p" :: Token.word "quantify" ::
          (vs.map Token.num ++ [t])) =
        parseLine st (Token.word "c" :: Token.word "p" :: Token.word "quantify" ::
          (vs.map Token.num ++ [Token.num 0]))) ∧
      (∀ names : List String,
        parseLine st (Token.word "c" :: Token.word "p" :: Token.word "semirings" ::
          (names.map Token.word ++ [t])) =
        parseLine st (Token.word "c" :: Token.word "p" :: Token.word "semirings" ::
          (names.map Token.word ++ [Token.num 0]))) ∧
      (∀ ts : List Token,
        parseLine st (Token.word "c" :: Token.word "p" :: Token.word "transform" ::
          (ts ++ [t])) =
        parseLine st (Token.word "c" :: Token.word "p" :: Token.word "transform" ::
          (ts ++ [Token.num 0]))) ∧
      (∀ (idx : Int) (ps : List String),
        parseLine st [Token.word "c", Token.word "p", Token.word "weight", Token.num idx,
          Token.vals ps, t] =
        parseLine st [Token.word "c", Token.word "p", Token.word "weight", Token.num idx,
          Token.vals ps, Token.num 0])) := by
  constructor
  · intro lines raw hfold
    refine ⟨?_, ?_, ?_⟩
    · intro hmm
      rw [parseCNF, hfold]
      simp only [exbind_ok]
      rw [finishParse, if_pos hmm]
    · intro heq hgt
      rw [parseCNF, hfold]
      simp only [exbind_ok]
      rw [finishParse, if_neg (by simp [heq]), if_pos hgt]
    · intro heq h2 hnone
      rw [parseCNF, hfold]
      simp only [exbind_ok]
      rw [finishParse, if_neg (by simp [heq]), if_neg (by simp [h2]), if_pos ⟨h2, hnone⟩]
  · intro st t
    refine ⟨?_, ?_, ?_, ?_⟩
    · intro vs
      rw [parseLine_quantify, parseLine_quantify]
    · intro names
      rw [parseLine_semirings, parseLine_semirings]
    · intro ts
      rw [parseLine_transform, parseLine_transform]
    · intro idx ps
      rw [parseLine_weight, parseLine_weight]

/-- Witness for the amended C5: the mismatch check fires on a concrete
input, and a sentinel-free quantify line parses exactly like the
sentinel-terminated one. -/
theorem parse_fatal_checks_and_sentinel_witness :
    parseCNF reg0 lines5m = .error .formatMismatch ∧
    parseLine RawCNF.init (Token.word "c" :: Token.word "p" :: Token.word "quantify" ::
      (([3] : List Int).map Token.num ++ [Token.word "x"])) =
    parseLine RawCNF.init (Token.word "c" :: Token.word "p" :: Token.word "quantify" ::
      (([3] : List Int).map Token.num ++ [Token.num 0])) := by
  constructor
  · exact (((parse_fatal_checks_and_sentinel reg0).1 lines5m
      ⟨[], 1, [], [], [[1]], none⟩ (by rfl)).1) (by decide)
  · exact (((parse_fatal_checks_and_sentinel reg0).2 RawCNF.init (Token.word "x")).1) [3]

/-- C7: the tempfile cleanup of solve_maxsat and solve_wmc breaks the
registry invariant: after deleting the cnf temp file, both call
my_signals.tempfiles.add on the deleted path instead of
my_signals.tempfiles.remove, so the process-wide set ends up holding the
path of a file that no longer exists. -/
theorem registry_add_after_delete :
    ("cnf_tmp" ∈ (runOps (solveMaxsatSatOps "cnf_tmp" "res_tmp") ⟨[], []⟩).registry ∧
     "cnf_tmp" ∉ (runOps (solveMaxsatSatOps "cnf_tmp" "res_tmp") ⟨[], []⟩).files ∧
     ¬ RegistryInv (runOps (solveMaxsatSatOps "cnf_tmp" "res_tmp") ⟨[], []⟩)) ∧
    ("wmc_tmp" ∈ (runOps (solveWmcOps "wmc_tmp") ⟨[], []⟩).registry ∧
     "wmc_tmp" ∉ (runOps (solveWmcOps "wmc_tmp") ⟨[], []⟩).files) := by
  have h1 : runOps (solveMaxsatSatOps "cnf_tmp" "res_tmp") ⟨[], []⟩ =
      ⟨[], ["cnf_tmp"]⟩ := rfl
  have h2 : runOps (solveWmcOps "wmc_tmp") ⟨[], []⟩ = ⟨[], ["wmc_tmp"]⟩ := rfl
  refine ⟨⟨?_, ?_, ?_⟩, ?_, ?_⟩
  · rw [h1]; simp
  · rw [h1]; simp
  · rw [h1]
    intro h
    have := (h "cnf_tmp").mp (by simp)
    simp at this
  · rw [h2]; simp
  · rw [h2]; simp

/-- C8: for a rooted tree decomposition (adjacency well-formed with respect
to the rooted tree, node identifiers distinct), the explicit-stack
post-order iteration terminates with exactly the recursive post-order
listing, the explicit-stack pre-order iteration with exactly the recursive
pre-order listing, every child bag occurs strictly before its parent in the
post-order, every parent strictly before each of its children in the
pre-order, the two listings are permutations of each other, and each bag is
visited exactly once by both. -/
theorem bag_iteration_orders (adj : Nat → List Nat) (t : RTree)
    (hH : Hangs adj 0 t) (hnd : (postorderF t).Nodup) :
    (∃ fuel, postIter adj t.rootId fuel = some (postorderF t)) ∧
    (∃ fuel, preIter adj t.rootId fuel = some (preorderF t)) ∧
    (∀ c p, ChildIn t c p → Before c p (postorderF t)) ∧
    (∀ c p, ChildIn t c p → Before p c (preorderF t)) ∧
    (postorderF t).Perm (preorderF t) ∧
    (∀ x ∈ postorderF t, (postorderF t).count x = 1 ∧ (preorderF t).count x = 1) := by
  refine ⟨postIter_post hH, preIter_pre hH,
    fun c p h => childin_before_post h,
    fun c p h => childin_before_pre h,
    post_perm_pre t, fun x hx => ?_⟩
  refine ⟨List.count_eq_one_of_mem hnd hx, ?_⟩
  exact List.count_eq_one_of_mem ((post_perm_pre t).nodup hnd)
    ((post_perm_pre t).mem_iff.mp hx)

/-- Witness for C8: the three-bag star with root 1 and children 2, 3. -/
theorem bag_iteration_orders_witness :
    (Hangs adjW 0 tW ∧ (postorderF tW).Nodup) ∧
    ((∃ fuel, postIter adjW tW.rootId fuel = some (postorderF tW)) ∧
     (∃ fuel, preIter adjW tW.rootId fuel = some (preorderF tW)) ∧
     (∀ c p, ChildIn tW c p → Before c p (postorderF tW)) ∧
     (∀ c p, ChildIn tW c p → Before p c (preorderF tW)) ∧
     (postorderF tW).Perm (preorderF tW) ∧
     (∀ x ∈ postorderF tW, (postorderF tW).count x = 1 ∧ (preorderF tW).count x = 1)) := by
  have hnd : (postorderF tW).Nodup := by rw [postF_tW]; decide
  exact ⟨⟨hangs_tW, hnd⟩, bag_iteration_orders adjW tW hangs_tW hnd⟩

/-- C9 (amended): for a rooted tree decomposition with more than one bag
whose tree nodes all resolve through get_bag and whose sentinel parent 0
does not, find_centroid computes exactly the first-trigger recursive
search: the first bag, in the order of subtree completions of the single
post-order pass, whose accumulated introduced-vertex count exceeds half
the vertices, and the get_bag failure outcome when no completion ever
exceeds half. -/
theorem find_centroid_first_trigger (td : TD) (t : RTree)
    (hb : td.bags ≠ 1) (hroot : t.rootId = td.root)
    (hH : Hangs td.adj 0 t)
    (hbag : ∀ x ∈ postorderF t, td.getBag x = some (td.bagOf x))
    (h0 : td.getBag 0 = none) :
    ∃ fuel, findCentroid td fuel = some (centroidSpec td.bagOf (td.vertices / 2) t) := by
  obtain ⟨r0, cs⟩ := t
  have hroot2 : r0 = td.root := hroot
  have hi : td.getBag r0 = some (td.bagOf r0) := hbag r0 (by simp [postorderF_node])
  cases hH with
  | mk hD hcs =>
      have hstep : ∀ s ∈ cs, TreeStepC td.adj td.getBag td.bagOf (td.vertices / 2) r0 s :=
        fun s hs => runsC_tree td.adj td.getBag td.bagOf (td.vertices / 2) (hcs s hs)
          (fun x hx => hbag x
            (by rw [postorderF_node]; exact List.mem_append_left _ (mem_postL_of_mem hs hx)))
      have hrun := runsC_root td.adj td.getBag td.bagOf (td.vertices / 2) r0 h0 hi cs
        hstep (td.adj r0) hD 0
        (centroidSpec td.bagOf (td.vertices / 2) (RTree.node r0 cs))
        (fun acc ha => by simp [centroidSpec, ha])
        (fun b hbb => by simp [centroidSpec, hbb])
      obtain ⟨fuel, hf⟩ := hrun
      refine ⟨fuel, ?_⟩
      rw [findCentroid, if_neg hb, ← hroot2]
      exact hf

/-- Witness for C9: the two-bag decomposition tdW, where the child bag
introduces three of the four vertices and the root triggers. -/
theorem find_centroid_first_trigger_witness :
    (tdW.bags ≠ 1 ∧ Hangs tdW.adj 0 tWc) ∧
    ∃ fuel, findCentroid tdW fuel = some (centroidSpec tdW.bagOf (tdW.vertices / 2) tWc) := by
  refine ⟨⟨by decide, hangs_tWc⟩,
    find_centroid_first_trigger tdW tWc (by decide) rfl hangs_tWc ?_ ?_⟩
  · intro x hx
    rw [postF_tWc] at hx
    rcases List.mem_cons.mp hx with rfl | hx2
    · simp [TD.getBag, tdW]
    · rcases List.mem_cons.mp hx2 with rfl | hx3
      · simp [TD.getBag, tdW]
      · cases hx3
  · simp [TD.getBag, tdW]

/-- C9 counterexample to the literal claim: td9 has two bags, both equal,
so no subtree completion ever exceeds half the vertices; instead of
returning some bag, find_centroid fails with the get_bag KeyError on the
sentinel parent of the root. -/
theorem find_centroid_err_no_heavy_bag :
    1 < td9.bags ∧ findCentroid td9 20 = some CentOut.err :=
  ⟨by decide, rfl⟩

/-- C10: remove rewrites only the per-bag vertex sets.  On a rooted tree
decomposition whose post-order visits exactly the recorded nodes, the
iteration terminates and produces a decomposition with every visited bag
replaced by its difference with the removed set, while the bag count, the
recorded width, the recorded vertex count, the root, the node list, and
the adjacency (hence all parent and children links) are untouched; bags of
identifiers outside the tree are also untouched, so the recorded width is
in particular not recomputed when the largest bag shrinks. -/
theorem remove_only_bag_vertex_sets (td : TD) (t : RTree) (s : Finset Nat)
    (hH : Hangs td.adj 0 t) (hroot : t.rootId = td.root)
    (hnodes : ∀ x, x ∈ postorderF t ↔ x ∈ td.nodes) :
    ∃ fuel td2, td.removeRun fuel s = some td2 ∧
      td2.bags = td.bags ∧ td2.width = td.width ∧ td2.vertices = td.vertices ∧
      td2.root = td.root ∧ td2.nodes = td.nodes ∧ td2.adj = td.adj ∧
      (∀ i ∈ td.nodes, td2.bagOf i = td.bagOf i \ s) ∧
      (∀ i, i ∉ td.nodes → td2.bagOf i = td.bagOf i) := by
  obtain ⟨fuel, hf⟩ := postIter_post hH
  rw [hroot] at hf
  refine ⟨fuel,
    { td with bagOf := fun i =>
        if i ∈ postorderF t then td.bagOf i \ s else td.bagOf i },
    ?_, rfl, rfl, rfl, rfl, rfl, rfl, ?_, ?_⟩
  · rw [TD.removeRun, hf]
    rfl
  · intro i hi
    show (if i ∈ postorderF t then td.bagOf i \ s else td.bagOf i) = td.bagOf i \ s
    rw [if_pos ((hnodes i).mpr hi)]
  · intro i hi
    show (if i ∈ postorderF t then td.bagOf i \ s else td.bagOf i) = td.bagOf i
    rw [if_neg (fun h => hi ((hnodes i).mp h))]

/-- Witness for C10: removing vertex 2 from the three-bag decomposition
tdR. -/
theorem remove_only_bag_vertex_sets_witness :
    (Hangs tdR.adj 0 tW ∧ tW.rootId = tdR.root) ∧
    ∃ fuel td2, tdR.removeRun fuel {2} = some td2 ∧
      td2.bags = tdR.bags ∧ td2.width = tdR.width ∧ td2.vertices = tdR.vertices ∧
      td2.root = tdR.root ∧ td2.nodes = tdR.nodes ∧ td2.adj = tdR.adj ∧
      (∀ i ∈ tdR.nodes, td2.bagOf i = tdR.bagOf i \ {2}) ∧
      (∀ i, i ∉ tdR.nodes → td2.bagOf i = tdR.bagOf i) := by
  have hH : Hangs tdR.adj 0 tW := hangs_tW
  refine ⟨⟨hH, rfl⟩, remove_only_bag_vertex_sets tdR tW {2} hH rfl ?_⟩
  intro x
  rw [postF_tW]
  show x ∈ [2, 3, 1] ↔ x ∈ [1, 2, 3]
  simp [List.mem_cons]
  tauto


end Aspmc
